import Mathlib

/-!
Verification of the rustlines computational core
(src/outlines/rustlines/src/lib.rs).

Shallow embedding conventions:
* Rust `BTreeMap` inputs become association lists with a first-match lookup
  (`assocGet`); `BTreeMap` values built by the code become sorted association
  lists built with `mapInsert` (insert keeps keys ascending, equal key
  overwrites), so that map equality is list equality.
* Rust `BTreeSet<i32>` membership becomes `listMem` on a list of `Int`.
* `&str` token text becomes `List Char`; Rust `str::len` (the UTF-8 byte
  count) becomes `byteLen`, with `lenUtf8` the byte count of one scalar value
  exactly as `char::len_utf8` computes it.
* A Rust panic (out-of-bounds index, propagated by `join().expect`) is the
  `none` of an `Option`-returning function, and the build loop's panic result
  is `BuildResult.aborted`.
* The `while let Some(..) = next_states.pop()` loop is embedded with an
  explicit fuel parameter; running out of fuel is `BuildResult.outOfFuel`, and
  the development proves separately that some finite fuel always suffices.
* `Vec::push`/`Vec::pop` at the back of `next_states` is embedded as
  cons/head on a list: both are the same LIFO discipline.
-/

namespace Rustlines

/-- Byte count of one character in UTF-8, as Rust computes `char::len_utf8`. -/
def lenUtf8 (c : Char) : Nat :=
  if c.toNat < 0x80 then 1
  else if c.toNat < 0x800 then 2
  else if c.toNat < 0x10000 then 3
  else 4

/-- Rust `str::len` of a token text: the total UTF-8 byte count.  This is the
quantity `token.len()` that `_state_scan_tokens` compares the walk length
against. -/
def byteLen : List Char → Nat
  | [] => 0
  | c :: cs => lenUtf8 c + byteLen cs

/-- `BTreeMap::get`: first-match lookup in an association list. -/
def assocGet {κ α : Type} [DecidableEq κ] (k : κ) : List (κ × α) → Option α
  | [] => none
  | (k', v) :: rest => if k' = k then some v else assocGet k rest

/-- `BTreeSet<i32>::contains`. -/
def listMem (x : Int) : List Int → Bool
  | [] => false
  | y :: rest => if y = x then true else listMem x rest

/-- `BTreeMap::insert` on a key-sorted association list: keeps keys strictly
ascending and overwrites on an equal key, so a `BTreeMap` value has one
canonical representation. -/
def mapInsert {α : Type} (k : Int) (v : α) : List (Int × α) → List (Int × α)
  | [] => [(k, v)]
  | (k', v') :: rest =>
    if k < k' then (k, v) :: (k', v') :: rest
    else if k = k' then (k, v) :: rest
    else (k', v') :: mapInsert k v rest

/-- The loop body of `_walk_fsm`, with the mutable locals `state`,
`accepted_states` and `is_final_state_reached` as explicit arguments.  On a
missing transition the early-break branch returns the accumulated states when
`!full_match && is_final_state_reached` and the empty vector otherwise; after
the loop, a `full_match` walk that never visited a final state is also
rejected. -/
def walkFsmGo (trans : List ((Int × Int) × Int)) (alpha : List (Char × Int))
    (anything : Int) (finals : List Int) (full : Bool) :
    List Char → Int → List Int → Bool → List Int
  | [], _, acc, isF => if full && !isF then [] else acc
  | c :: cs, state, acc, isF =>
    match assocGet (state, (assocGet c alpha).getD anything) trans with
    | some newState =>
      walkFsmGo trans alpha anything finals full cs newState (acc ++ [newState])
        (isF || listMem newState finals)
    | none => if !full && isF then acc else []

/-- `_walk_fsm`.  The `_fsmInitial` argument is unused, exactly as the Rust
parameter `_fsm_initial` is. -/
def walkFsm (trans : List ((Int × Int) × Int)) (alpha : List (Char × Int))
    (anything : Int) (_fsmInitial : Int) (finals : List Int)
    (inputString : List Char) (startState : Int) (full : Bool) : List Int :=
  walkFsmGo trans alpha anything finals full inputString startState [] false

/-- The deterministic transition chain of a token text: `some tr` when every
character has a defined transition from the current state onward (`tr` is the
visited-state sequence), `none` when some character has no transition.  This
is the specification-side notion "every character of the token has a defined
transition chain from the start state". -/
def chainStates (trans : List ((Int × Int) × Int)) (alpha : List (Char × Int))
    (anything : Int) : List Char → Int → Option (List Int)
  | [], _ => some []
  | c :: cs, s =>
    match assocGet (s, (assocGet c alpha).getD anything) trans with
    | some t => (chainStates trans alpha anything cs t).map (fun r => t :: r)
    | none => none

/-- The inner `for token_id in token_ids` loop of `_state_scan_tokens`: it
pushes `(token_id, state_seq[state_seq.len() - 1])` for every id.  The
indexing is evaluated inside the loop body, so an empty `state_seq` is an
out-of-bounds access (`none`) only when at least one id is present. -/
def pushTokenIds (stateSeq : List Int) : List Int → Option (List (Int × Int))
  | [] => some []
  | id :: rest =>
    match stateSeq.getLast? with
    | none => none
    | some e => (pushTokenIds stateSeq rest).map (fun ps => (id, e) :: ps)

/-- The per-worker loop of `_state_scan_tokens` over one chunk of the
vocabulary: walk each token with `full_match = false`, skip it when the
returned sequence is shorter than the token's byte length, otherwise emit one
pair per id.  `none` models the worker thread panicking, which
`join().expect` turns into a failure of the whole scan. -/
def scanChunk (trans : List ((Int × Int) × Int)) (alpha : List (Char × Int))
    (anything : Int) (initS : Int) (finals : List Int) (startS : Int) :
    List (List Char × List Int) → Option (List (Int × Int))
  | [] => some []
  | (token, ids) :: rest =>
    let stateSeq := walkFsm trans alpha anything initS finals token startS false
    if stateSeq.length < byteLen token then
      scanChunk trans alpha anything initS finals startS rest
    else
      match pushTokenIds stateSeq ids with
      | none => none
      | some prs =>
        (scanChunk trans alpha anything initS finals startS rest).map
          (fun r => prs ++ r)

/-- The exact integer ceiling `⌈n_tokens / 16⌉`: an idealisation of the
code's `(n_tokens as f32 / n_threads as f32).ceil() as usize`.  The bit-exact
model of that expression is `tokensPerThreadF32` below; the two agree for
every `n_tokens ≤ 2^24` (`tokensPerThreadF32_of_le`) and the claims that are
sensitive to the difference are settled against the bit-exact model. -/
def tokensPerThread (nTokens : Nat) : Nat := (nTokens + 15) / 16

/-- The exponent of the unit in the last place of the `f32` nearest to `n`:
how many halvings bring `n` below the 24-bit significand range.  The fuel is
structural recursion depth; 64 halvings suffice for every `usize` input. -/
def f32ulpExp : Nat → Nat → Nat
  | 0, _ => 0
  | fuel + 1, n => if 2 ^ 24 ≤ n then f32ulpExp fuel (n / 2) + 1 else 0

/-- The value of `n as f32` for a `usize` `n`, as a natural number: round `n`
to the nearest multiple of its 24-bit-significand unit in the last place,
ties to even (IEEE 754 default rounding; every `usize` is finite in `f32`,
and the integral result is always representable). -/
def f32roundNat (n : Nat) : Nat :=
  let unit := 2 ^ f32ulpExp 64 n
  let q := n / unit
  let r := n % unit
  if 2 * r < unit then q * unit
  else if unit < 2 * r then (q + 1) * unit
  else if q % 2 = 0 then q * unit else (q + 1) * unit

/-- Bit-exact model of
`(n_tokens as f32 / n_threads as f32).ceil() as usize` with `n_threads = 16`:
the usize-to-f32 cast rounds ties-to-even (`f32roundNat`); dividing the
result by `16.0` (a power of two) only shifts the exponent and the ceiling of
the resulting value is exactly representable, so the rest of the expression
is exact and the whole equals `⌈f32roundNat n_tokens / 16⌉`.  At
`n_tokens = 2^24 + 1` the cast rounds down to `2^24` and this yields
`1048576`, whose 16 chunks cover only `2^24` entries. -/
def tokensPerThreadF32 (nTokens : Nat) : Nat := (f32roundNat nTokens + 15) / 16

/-- The chunk ranges of the parallel branch with the bit-exact
`tokens_per_thread`. -/
def parChunksF32 (nTokens : Nat) : List (Nat × Nat) :=
  (List.range 16).filterMap (fun i =>
    let start := i * tokensPerThreadF32 nTokens
    let stop := start + tokensPerThreadF32 nTokens
    let stop := if nTokens < stop then nTokens else stop
    if start < nTokens then some (start, stop) else none)

/-- `token_chunks` with the bit-exact `tokens_per_thread`. -/
def tokenChunksF32 (nTokens : Nat) : List (Nat × Nat) :=
  if 1000 < nTokens then parChunksF32 nTokens else [(0, nTokens)]

/-- The 16 contiguous chunk index ranges built by the parallel branch of
`_state_scan_tokens`: chunk `i` is `[i*tpt, min((i+1)*tpt, n))`, kept only
when its start is in bounds. -/
def parChunks (nTokens : Nat) : List (Nat × Nat) :=
  (List.range 16).filterMap (fun i =>
    let start := i * tokensPerThread nTokens
    let stop := start + tokensPerThread nTokens
    let stop := if nTokens < stop then nTokens else stop
    if start < nTokens then some (start, stop) else none)

/-- The chunk list `token_chunks` of `_state_scan_tokens`: the 16-way
partition when the vocabulary has more than 1000 entries, the single
contiguous range `(0, n_tokens)` otherwise. -/
def tokenChunks (nTokens : Nat) : List (Nat × Nat) :=
  if 1000 < nTokens then parChunks nTokens else [(0, nTokens)]

/-- `mapM` over `Option`, written out: `none` as soon as one element fails.
This is how joining the worker threads behaves: any panicking worker makes
the whole collection fail. -/
def optionMapM {α β : Type} (f : α → Option β) : List α → Option (List β)
  | [] => some []
  | a :: rest =>
    match f a with
    | none => none
    | some b => (optionMapM f rest).map (fun bs => b :: bs)

/-- `_state_scan_tokens`: slice the (key-sorted) vocabulary into
`token_chunks`, run the per-token loop on every chunk, and concatenate the
per-worker outputs.  The vocabulary list stands for the `BTreeMap` iteration
order, i.e. it is sorted by token text. -/
def stateScanTokens (trans : List ((Int × Int) × Int)) (alpha : List (Char × Int))
    (anything : Int) (initS : Int) (finals : List Int)
    (vocab : List (List Char × List Int)) (startS : Int) :
    Option (List (Int × Int)) :=
  (optionMapM
    (fun c => scanChunk trans alpha anything initS finals startS
      ((vocab.drop c.1).take (c.2 - c.1)))
    (tokenChunks vocab.length)).map List.flatten

/-- The parallel path of `_state_scan_tokens` taken unconditionally: always
partition into the 16 contiguous per-worker chunks. -/
def stateScanTokensPar (trans : List ((Int × Int) × Int)) (alpha : List (Char × Int))
    (anything : Int) (initS : Int) (finals : List Int)
    (vocab : List (List Char × List Int)) (startS : Int) :
    Option (List (Int × Int)) :=
  (optionMapM
    (fun c => scanChunk trans alpha anything initS finals startS
      ((vocab.drop c.1).take (c.2 - c.1)))
    (parChunks vocab.length)).map List.flatten

/-- The single-threaded path of `_state_scan_tokens` taken unconditionally:
one contiguous range covering the whole vocabulary. -/
def stateScanTokensSingle (trans : List ((Int × Int) × Int)) (alpha : List (Char × Int))
    (anything : Int) (initS : Int) (finals : List Int)
    (vocab : List (List Char × List Int)) (startS : Int) :
    Option (List (Int × Int)) :=
  (optionMapM
    (fun c => scanChunk trans alpha anything initS finals startS
      ((vocab.drop c.1).take (c.2 - c.1)))
    [(0, vocab.length)]).map List.flatten

/-- `_state_scan_tokens` with the bit-exact chunk arithmetic: the faithful
embedding of the scan, agreeing with `stateScanTokens` on every vocabulary
of at most `2^24` entries (`stateScanTokensF32_of_le`). -/
def stateScanTokensF32 (trans : List ((Int × Int) × Int)) (alpha : List (Char × Int))
    (anything : Int) (initS : Int) (finals : List Int)
    (vocab : List (List Char × List Int)) (startS : Int) :
    Option (List (Int × Int)) :=
  (optionMapM
    (fun c => scanChunk trans alpha anything initS finals startS
      ((vocab.drop c.1).take (c.2 - c.1)))
    (tokenChunksF32 vocab.length)).map List.flatten

/-- The parallel path with the bit-exact chunk arithmetic, taken
unconditionally. -/
def stateScanTokensF32Par (trans : List ((Int × Int) × Int)) (alpha : List (Char × Int))
    (anything : Int) (initS : Int) (finals : List Int)
    (vocab : List (List Char × List Int)) (startS : Int) :
    Option (List (Int × Int)) :=
  (optionMapM
    (fun c => scanChunk trans alpha anything initS finals startS
      ((vocab.drop c.1).take (c.2 - c.1)))
    (parChunksF32 vocab.length)).map List.flatten

/-- Result of `create_fsm_index_end_to_end_rust`: `ok` carries the final
state-to-pairs mapping (outer map key-sorted; each inner `BTreeMap<i32,i32>`
of id-to-end-state entries is kept as its key-sorted pair list, which is
exactly the `BTreeSet<(i32,i32)>` the code converts it into).  `aborted` is a
propagated worker panic; `outOfFuel` only signals that the embedding's fuel
ran out. -/
inductive BuildResult where
  | ok (index : List (Int × List (Int × Int)))
  | aborted
  | outOfFuel
deriving DecidableEq

/-- `states_to_token_subsets.entry(start_state).or_default().insert(id, e)`:
insert into the inner map of key `s`, creating the entry on first use. -/
def accInsert (acc : List (Int × List (Int × Int))) (s id e : Int) :
    List (Int × List (Int × Int)) :=
  mapInsert s (mapInsert id e ((assocGet s acc).getD [])) acc

/-- The `for token_id_and_end_state in token_ids_end_states` loop of the
build: for each pair, push the end state onto the frontier unless already
seen, and record the pair under the current start state. -/
def processPairs (seen : List Int) (startS : Int) :
    List (Int × Int) → List Int → List (Int × List (Int × Int)) →
    List Int × List (Int × List (Int × Int))
  | [], stack, acc => (stack, acc)
  | (id, e) :: ps, stack, acc =>
    processPairs seen startS ps
      (if listMem e seen then stack else e :: stack)
      (accInsert acc startS id e)

/-- The `while let Some(start_state) = next_states.pop()` loop of
`create_fsm_index_end_to_end_rust`, with fuel.  Each iteration pops a start
state, scans the whole vocabulary from it, processes the returned pairs, and
only then marks the start state seen. -/
def buildLoop (trans : List ((Int × Int) × Int)) (alpha : List (Char × Int))
    (anything : Int) (initS : Int) (finals : List Int)
    (vocab : List (List Char × List Int)) :
    Nat → List Int → List Int → List (Int × List (Int × Int)) → BuildResult
  | 0, _, _, _ => .outOfFuel
  | fuel + 1, stack, seen, acc =>
    match stack with
    | [] => .ok acc
    | s :: rest =>
      match stateScanTokens trans alpha anything initS finals vocab s with
      | none => .aborted
      | some ps =>
        buildLoop trans alpha anything initS finals vocab fuel
          (processPairs seen s ps rest acc).1 (s :: seen)
          (processPairs seen s ps rest acc).2

/-- `create_fsm_index_end_to_end_rust`: run the frontier loop from the
frontier `[fsm_initial]`, no seen states, empty accumulator. -/
def createFsmIndexEndToEndRust (trans : List ((Int × Int) × Int))
    (alpha : List (Char × Int)) (anything : Int) (initS : Int)
    (finals : List Int) (vocab : List (List Char × List Int)) (fuel : Nat) :
    BuildResult :=
  buildLoop trans alpha anything initS finals vocab fuel [initS] [] []

/-- The frontier loop with the bit-exact scan `stateScanTokensF32`: the
faithful embedding of the build, agreeing with `buildLoop` on every
vocabulary of at most `2^24` entries (`buildLoopF32_of_le`). -/
def buildLoopF32 (trans : List ((Int × Int) × Int)) (alpha : List (Char × Int))
    (anything : Int) (initS : Int) (finals : List Int)
    (vocab : List (List Char × List Int)) :
    Nat → List Int → List Int → List (Int × List (Int × Int)) → BuildResult
  | 0, _, _, _ => .outOfFuel
  | fuel + 1, stack, seen, acc =>
    match stack with
    | [] => .ok acc
    | s :: rest =>
      match stateScanTokensF32 trans alpha anything initS finals vocab s with
      | none => .aborted
      | some ps =>
        buildLoopF32 trans alpha anything initS finals vocab fuel
          (processPairs seen s ps rest acc).1 (s :: seen)
          (processPairs seen s ps rest acc).2

/-- `create_fsm_index_end_to_end_rust` with the bit-exact scan. -/
def createFsmIndexEndToEndRustF32 (trans : List ((Int × Int) × Int))
    (alpha : List (Char × Int)) (anything : Int) (initS : Int)
    (finals : List Int) (vocab : List (List Char × List Int)) (fuel : Nat) :
    BuildResult :=
  buildLoopF32 trans alpha anything initS finals vocab fuel [initS] [] []

/-- Instrumentation of `buildLoop`: the sequence of start states passed to
`_state_scan_tokens` by the frontier loop, in order.  It mirrors `buildLoop`
step for step and records the popped state of every iteration. -/
def buildScanTrace (trans : List ((Int × Int) × Int)) (alpha : List (Char × Int))
    (anything : Int) (initS : Int) (finals : List Int)
    (vocab : List (List Char × List Int)) :
    Nat → List Int → List Int → List (Int × List (Int × Int)) → List Int
  | 0, _, _, _ => []
  | fuel + 1, stack, seen, acc =>
    match stack with
    | [] => []
    | s :: rest =>
      match stateScanTokens trans alpha anything initS finals vocab s with
      | none => [s]
      | some ps =>
        s :: buildScanTrace trans alpha anything initS finals vocab fuel
          (processPairs seen s ps rest acc).1 (s :: seen)
          (processPairs seen s ps rest acc).2

/-- All states occurring as a transition target in the automaton. -/
def transValues (trans : List ((Int × Int) × Int)) : List Int :=
  trans.map (fun kv => kv.2)

/-- States reachable from the initial state by concatenating zero or more
vocabulary tokens that the scan retains: exactly the states the frontier loop
can ever discover. -/
inductive Reachable (trans : List ((Int × Int) × Int)) (alpha : List (Char × Int))
    (anything : Int) (initS : Int) (finals : List Int)
    (vocab : List (List Char × List Int)) : Int → Prop where
  | base : Reachable trans alpha anything initS finals vocab initS
  | step {s e id : Int} {ps : List (Int × Int)} :
      Reachable trans alpha anything initS finals vocab s →
      stateScanTokens trans alpha anything initS finals vocab s = some ps →
      (id, e) ∈ ps →
      Reachable trans alpha anything initS finals vocab e

/-! ### Basic lemmas about the helper structures -/

theorem listMem_iff (x : Int) : ∀ l : List Int, listMem x l = true ↔ x ∈ l := by
  intro l
  induction l with
  | nil => simp [listMem]
  | cons y rest ih =>
    by_cases h : y = x <;> simp [listMem, h, ih]
    exact fun hx => (h hx.symm).elim

theorem lenUtf8_pos (c : Char) : 0 < lenUtf8 c := by
  unfold lenUtf8
  split <;> try omega
  split <;> try omega
  split <;> omega

theorem length_le_byteLen : ∀ cs : List Char, cs.length ≤ byteLen cs := by
  intro cs
  induction cs with
  | nil => simp [byteLen]
  | cons c rest ih =>
    have := lenUtf8_pos c
    simp only [List.length_cons, byteLen]
    omega

theorem byteLen_pos {cs : List Char} (h : cs ≠ []) : 0 < byteLen cs := by
  cases cs with
  | nil => exact (h rfl).elim
  | cons c rest =>
    have := lenUtf8_pos c
    simp only [byteLen]
    omega

theorem assocGet_mem_values {l : List ((Int × Int) × Int)} {k : Int × Int} {v : Int}
    (h : assocGet k l = some v) : v ∈ transValues l := by
  induction l with
  | nil => simp [assocGet] at h
  | cons kv rest ih =>
    obtain ⟨k', v'⟩ := kv
    by_cases hk : k' = k
    · simp only [assocGet, hk, if_pos rfl] at h
      cases h
      simp [transValues]
    · simp only [assocGet, hk, if_neg hk] at h
      simp only [transValues, List.map_cons, List.mem_cons]
      exact Or.inr (ih h)

/-! ### Lemmas about the walker -/

theorem chainStates_length (trans : List ((Int × Int) × Int)) (alpha : List (Char × Int))
    (anything : Int) :
    ∀ (cs : List Char) (s : Int) (tr : List Int),
      chainStates trans alpha anything cs s = some tr → tr.length = cs.length := by
  intro cs
  induction cs with
  | nil =>
    intro s tr htr
    simp only [chainStates, Option.some_inj] at htr
    subst htr; rfl
  | cons c cs ih =>
    intro s tr htr
    simp only [chainStates] at htr
    cases hget : assocGet (s, (assocGet c alpha).getD anything) trans with
    | none => rw [hget] at htr; simp at htr
    | some t =>
      rw [hget] at htr
      rw [Option.map_eq_some'] at htr
      obtain ⟨tr', htr', rfl⟩ := htr
      simp [ih t tr' htr']

/-- When every character has a defined transition, the walker's loop runs to
the end with the visited trace appended to the accumulator; only the final
`full_match` check can still discard it. -/
theorem walkFsmGo_chain_some (trans : List ((Int × Int) × Int)) (alpha : List (Char × Int))
    (anything : Int) (finals : List Int) (full : Bool) :
    ∀ (cs : List Char) (s : Int) (tr : List Int),
      chainStates trans alpha anything cs s = some tr →
      ∀ (acc : List Int) (isF : Bool),
        walkFsmGo trans alpha anything finals full cs s acc isF =
          if full && !(isF || tr.any (fun x => listMem x finals)) then [] else acc ++ tr := by
  intro cs
  induction cs with
  | nil =>
    intro s tr htr acc isF
    simp only [chainStates, Option.some_inj] at htr
    subst htr
    simp [walkFsmGo]
  | cons c cs ih =>
    intro s tr htr acc isF
    simp only [chainStates] at htr
    cases hget : assocGet (s, (assocGet c alpha).getD anything) trans with
    | none => rw [hget] at htr; simp at htr
    | some t =>
      rw [hget] at htr
      rw [Option.map_eq_some'] at htr
      obtain ⟨tr', htr', rfl⟩ := htr
      simp only [walkFsmGo, hget]
      rw [ih t tr' htr' (acc ++ [t]) (isF || listMem t finals)]
      simp [Bool.or_assoc]

/-- When some character lacks a transition, a `full_match` walk is always
rejected. -/
theorem walkFsmGo_chain_none_true (trans : List ((Int × Int) × Int)) (alpha : List (Char × Int))
    (anything : Int) (finals : List Int) :
    ∀ (cs : List Char) (s : Int),
      chainStates trans alpha anything cs s = none →
      ∀ (acc : List Int) (isF : Bool),
        walkFsmGo trans alpha anything finals true cs s acc isF = [] := by
  intro cs
  induction cs with
  | nil => intro s htr; simp [chainStates] at htr
  | cons c cs ih =>
    intro s htr acc isF
    simp only [chainStates] at htr
    cases hget : assocGet (s, (assocGet c alpha).getD anything) trans with
    | none => simp [walkFsmGo, hget]
    | some t =>
      rw [hget, Option.map_eq_none'] at htr
      simp only [walkFsmGo, hget]
      exact ih t htr (acc ++ [t]) (isF || listMem t finals)

/-- When some character lacks a transition, a non-`full_match` walk either
rejects outright or returns a strictly shorter truncated trace, and the
truncation is only taken after a final state was visited. -/
theorem walkFsmGo_chain_none_false (trans : List ((Int × Int) × Int)) (alpha : List (Char × Int))
    (anything : Int) (finals : List Int) :
    ∀ (cs : List Char) (s : Int),
      chainStates trans alpha anything cs s = none →
      ∀ (acc : List Int) (isF : Bool),
        walkFsmGo trans alpha anything finals false cs s acc isF = [] ∨
        ∃ tl, walkFsmGo trans alpha anything finals false cs s acc isF = acc ++ tl ∧
          (acc ++ tl).length < acc.length + cs.length ∧
          (isF = true ∨ ∃ x, x ∈ acc ++ tl ∧ listMem x finals = true) := by
  intro cs
  induction cs with
  | nil => intro s htr; simp [chainStates] at htr
  | cons c cs ih =>
    intro s htr acc isF
    simp only [chainStates] at htr
    cases hget : assocGet (s, (assocGet c alpha).getD anything) trans with
    | none =>
      simp only [walkFsmGo, hget, Bool.not_false, Bool.true_and]
      cases isF with
      | false => exact Or.inl rfl
      | true =>
        refine Or.inr ⟨[], by simp, ?_, Or.inl rfl⟩
        simp
    | some t =>
      rw [hget, Option.map_eq_none'] at htr
      simp only [walkFsmGo, hget]
      rcases ih t htr (acc ++ [t]) (isF || listMem t finals) with h | ⟨tl, heq, hlen, hdisj⟩
      · exact Or.inl h
      · have hcons : acc ++ [t] ++ tl = acc ++ t :: tl := by simp
        rw [hcons] at heq hlen hdisj
        refine Or.inr ⟨t :: tl, heq, ?_, ?_⟩
        · simp only [List.length_append, List.length_cons, List.length_nil,
            List.length_singleton] at hlen ⊢
          omega
        · rcases hdisj with hor | ⟨x, hx, hxf⟩
          · have hor' : isF = true ∨ listMem t finals = true := by simpa using hor
            rcases hor' with hF | hT
            · exact Or.inl hF
            · exact Or.inr ⟨t, by simp, hT⟩
          · exact Or.inr ⟨x, hx, hxf⟩

theorem walkFsmGo_length_le (trans : List ((Int × Int) × Int)) (alpha : List (Char × Int))
    (anything : Int) (finals : List Int) (full : Bool) :
    ∀ (cs : List Char) (s : Int) (acc : List Int) (isF : Bool),
      (walkFsmGo trans alpha anything finals full cs s acc isF).length ≤
        acc.length + cs.length := by
  intro cs
  induction cs with
  | nil =>
    intro s acc isF
    simp only [walkFsmGo]
    split <;> simp
  | cons c cs ih =>
    intro s acc isF
    cases hget : assocGet (s, (assocGet c alpha).getD anything) trans with
    | none =>
      simp only [walkFsmGo, hget]
      split <;> simp only [List.length_nil, List.length_cons] <;> omega
    | some t =>
      simp only [walkFsmGo, hget]
      have := ih t (acc ++ [t]) (isF || listMem t finals)
      simp only [List.length_append, List.length_singleton, List.length_cons,
        List.length_nil] at this ⊢
      omega

theorem walkFsmGo_mem (trans : List ((Int × Int) × Int)) (alpha : List (Char × Int))
    (anything : Int) (finals : List Int) (full : Bool) :
    ∀ (cs : List Char) (s : Int) (acc : List Int) (isF : Bool) (x : Int),
      x ∈ walkFsmGo trans alpha anything finals full cs s acc isF →
      x ∈ acc ∨ x ∈ transValues trans := by
  intro cs
  induction cs with
  | nil =>
    intro s acc isF x hx
    simp only [walkFsmGo] at hx
    split at hx
    · simp at hx
    · exact Or.inl hx
  | cons c cs ih =>
    intro s acc isF x hx
    cases hget : assocGet (s, (assocGet c alpha).getD anything) trans with
    | none =>
      simp only [walkFsmGo, hget] at hx
      split at hx
      · exact Or.inl hx
      · simp at hx
    | some t =>
      simp only [walkFsmGo, hget] at hx
      rcases ih t (acc ++ [t]) (isF || listMem t finals) x hx with h | h
      · rcases List.mem_append.mp h with h | h
        · exact Or.inl h
        · simp only [List.mem_singleton] at h
          subst h
          exact Or.inr (assocGet_mem_values hget)
      · exact Or.inr h

/-! ### Walker lemmas at the `walkFsm` entry point -/

theorem walkFsm_chain_some {trans : List ((Int × Int) × Int)} {alpha : List (Char × Int)}
    {anything : Int} (initS : Int) (finals : List Int) (full : Bool)
    {token : List Char} {s : Int} {tr : List Int}
    (h : chainStates trans alpha anything token s = some tr) :
    walkFsm trans alpha anything initS finals token s full =
      if full && !(tr.any (fun x => listMem x finals)) then [] else tr := by
  unfold walkFsm
  rw [walkFsmGo_chain_some trans alpha anything finals full token s tr h [] false]
  simp

theorem walkFsm_false_chain_some {trans : List ((Int × Int) × Int)} {alpha : List (Char × Int)}
    {anything : Int} (initS : Int) (finals : List Int)
    {token : List Char} {s : Int} {tr : List Int}
    (h : chainStates trans alpha anything token s = some tr) :
    walkFsm trans alpha anything initS finals token s false = tr := by
  rw [walkFsm_chain_some initS finals false h]
  simp

theorem walkFsm_chain_none_true {trans : List ((Int × Int) × Int)} {alpha : List (Char × Int)}
    {anything : Int} (initS : Int) (finals : List Int)
    {token : List Char} {s : Int}
    (h : chainStates trans alpha anything token s = none) :
    walkFsm trans alpha anything initS finals token s true = [] :=
  walkFsmGo_chain_none_true trans alpha anything finals token s h [] false

theorem walkFsm_chain_none_false {trans : List ((Int × Int) × Int)} {alpha : List (Char × Int)}
    {anything : Int} (initS : Int) (finals : List Int)
    {token : List Char} {s : Int}
    (h : chainStates trans alpha anything token s = none) :
    walkFsm trans alpha anything initS finals token s false = [] ∨
      ((walkFsm trans alpha anything initS finals token s false).length < token.length ∧
       ∃ x, x ∈ walkFsm trans alpha anything initS finals token s false ∧
         listMem x finals = true) := by
  unfold walkFsm
  rcases walkFsmGo_chain_none_false trans alpha anything finals token s h [] false with
    heq | ⟨tl, heq, hlen, hdisj⟩
  · exact Or.inl heq
  · refine Or.inr ⟨?_, ?_⟩
    · rw [heq]
      simpa using hlen
    · rcases hdisj with hF | hx
      · simp at hF
      · rw [heq]
        simpa using hx

theorem walkFsm_length_le (trans : List ((Int × Int) × Int)) (alpha : List (Char × Int))
    (anything : Int) (initS : Int) (finals : List Int)
    (token : List Char) (s : Int) (full : Bool) :
    (walkFsm trans alpha anything initS finals token s full).length ≤ token.length := by
  unfold walkFsm
  simpa using walkFsmGo_length_le trans alpha anything finals full token s [] false

theorem walkFsm_mem_transValues {trans : List ((Int × Int) × Int)} {alpha : List (Char × Int)}
    {anything : Int} {initS : Int} {finals : List Int}
    {token : List Char} {s : Int} {full : Bool} {x : Int}
    (hx : x ∈ walkFsm trans alpha anything initS finals token s full) :
    x ∈ transValues trans := by
  unfold walkFsm at hx
  rcases walkFsmGo_mem trans alpha anything finals full token s [] false x hx with h | h
  · simp at h
  · exact h

/-- Non-`full_match` walk correctness core: the returned sequence has the
token's character length exactly when every character has a defined
transition chain. -/
theorem walkFsm_false_length_iff (trans : List ((Int × Int) × Int)) (alpha : List (Char × Int))
    (anything : Int) (initS : Int) (finals : List Int) (token : List Char) (s : Int) :
    (walkFsm trans alpha anything initS finals token s false).length = token.length ↔
      (chainStates trans alpha anything token s).isSome = true := by
  constructor
  · intro hlen
    cases htr : chainStates trans alpha anything token s with
    | some tr => simp
    | none =>
      rcases walkFsm_chain_none_false initS finals htr with heq | ⟨hlt, _⟩
      · rw [heq] at hlen
        simp only [List.length_nil] at hlen
        cases token with
        | nil => simp [chainStates] at htr
        | cons c cs => simp at hlen
      · omega
  · intro hsome
    rw [Option.isSome_iff_exists] at hsome
    obtain ⟨tr, htr⟩ := hsome
    rw [walkFsm_false_chain_some initS finals htr]
    exact chainStates_length trans alpha anything token s tr htr

/-! ### Lemmas about the per-chunk scanning loop -/

theorem walkFsm_nil (trans : List ((Int × Int) × Int)) (alpha : List (Char × Int))
    (anything : Int) (initS : Int) (finals : List Int) (s : Int) (full : Bool) :
    walkFsm trans alpha anything initS finals [] s full = [] := by
  cases full <;> rfl

theorem pushTokenIds_getLast_some {stateSeq : List Int} {e0 : Int}
    (h : stateSeq.getLast? = some e0) :
    ∀ ids : List Int, pushTokenIds stateSeq ids = some (ids.map (fun id => (id, e0))) := by
  intro ids
  induction ids with
  | nil => rfl
  | cons i is ih => simp [pushTokenIds, h, ih]

theorem pushTokenIds_mem {stateSeq : List Int} :
    ∀ {ids : List Int} {prs : List (Int × Int)},
      pushTokenIds stateSeq ids = some prs →
      ∀ id e : Int, ((id, e) ∈ prs ↔ id ∈ ids ∧ stateSeq.getLast? = some e) := by
  intro ids
  induction ids with
  | nil =>
    intro prs h id e
    simp only [pushTokenIds, Option.some_inj] at h
    subst h
    simp
  | cons i0 is ih =>
    intro prs h id e
    simp only [pushTokenIds] at h
    cases hl : stateSeq.getLast? with
    | none => rw [hl] at h; simp at h
    | some e0 =>
      rw [hl, Option.map_eq_some'] at h
      obtain ⟨prs', h', rfl⟩ := h
      have hih := ih h' id e
      simp only [List.mem_cons, hih, hl, Option.some_inj]
      constructor
      · rintro (heq | ⟨hid, he⟩)
        · injection heq with h1 h2
          exact ⟨Or.inl h1, h2.symm⟩
        · exact ⟨Or.inr hid, he⟩
      · rintro ⟨hid | hid, he⟩
        · subst hid; subst he
          exact Or.inl rfl
        · exact Or.inr ⟨hid, he⟩

/-- Membership in a successful chunk scan: exactly the pairs coming from a
token whose walk is at least as long as its byte length, ending at the
walk's last state. -/
theorem scanChunk_mem (trans : List ((Int × Int) × Int)) (alpha : List (Char × Int))
    (anything : Int) (initS : Int) (finals : List Int) (startS : Int) :
    ∀ (vocab : List (List Char × List Int)) (res : List (Int × Int)),
      scanChunk trans alpha anything initS finals startS vocab = some res →
      ∀ id e : Int,
        ((id, e) ∈ res ↔ ∃ T ids, (T, ids) ∈ vocab ∧ id ∈ ids ∧
          ¬((walkFsm trans alpha anything initS finals T startS false).length < byteLen T) ∧
          (walkFsm trans alpha anything initS finals T startS false).getLast? = some e) := by
  intro vocab
  induction vocab with
  | nil =>
    intro res h id e
    simp only [scanChunk, Option.some_inj] at h
    subst h
    simp
  | cons entry rest ih =>
    obtain ⟨T0, ids0⟩ := entry
    intro res h id e
    simp only [scanChunk] at h
    by_cases hf : (walkFsm trans alpha anything initS finals T0 startS false).length < byteLen T0
    · rw [if_pos hf] at h
      rw [ih res h id e]
      constructor
      · rintro ⟨T, ids, hmem, hid, hnl, hl⟩
        exact ⟨T, ids, List.mem_cons_of_mem _ hmem, hid, hnl, hl⟩
      · rintro ⟨T, ids, hmem, hid, hnl, hl⟩
        rcases List.mem_cons.mp hmem with heq | hmem'
        · obtain ⟨h1, h2⟩ := Prod.mk.injEq .. ▸ heq
          subst h1; subst h2
          exact absurd hf hnl
        · exact ⟨T, ids, hmem', hid, hnl, hl⟩
    · rw [if_neg hf] at h
      cases hp : pushTokenIds (walkFsm trans alpha anything initS finals T0 startS false) ids0 with
      | none => rw [hp] at h; simp at h
      | some prs =>
        rw [hp, Option.map_eq_some'] at h
        obtain ⟨res', hres', rfl⟩ := h
        rw [List.mem_append]
        constructor
        · rintro (hin | hin)
          · obtain ⟨hid, hle⟩ := (pushTokenIds_mem hp id e).mp hin
            exact ⟨T0, ids0, List.mem_cons_self _ _, hid, hf, hle⟩
          · obtain ⟨T, ids, hmem, hid, hnl, hl⟩ := (ih res' hres' id e).mp hin
            exact ⟨T, ids, List.mem_cons_of_mem _ hmem, hid, hnl, hl⟩
        · rintro ⟨T, ids, hmem, hid, hnl, hl⟩
          rcases List.mem_cons.mp hmem with heq | hmem'
          · obtain ⟨h1, h2⟩ := Prod.mk.injEq .. ▸ heq
            subst h1; subst h2
            exact Or.inl ((pushTokenIds_mem hp id e).mpr ⟨hid, hl⟩)
          · exact Or.inr ((ih res' hres' id e).mpr ⟨T, ids, hmem', hid, hnl, hl⟩)

theorem isSome_map {α β : Type} (f : α → β) (x : Option α) :
    (Option.map f x).isSome = x.isSome := by
  cases x <;> rfl

/-- A chunk scan fails (a worker panics) exactly when the chunk contains an
empty token text carrying at least one id. -/
theorem scanChunk_isSome_iff (trans : List ((Int × Int) × Int)) (alpha : List (Char × Int))
    (anything : Int) (initS : Int) (finals : List Int) (startS : Int) :
    ∀ vocab : List (List Char × List Int),
      (scanChunk trans alpha anything initS finals startS vocab).isSome = true ↔
        ∀ T ids, (T, ids) ∈ vocab → T = [] → ids = [] := by
  intro vocab
  induction vocab with
  | nil => simp [scanChunk]
  | cons entry rest ih =>
    obtain ⟨T0, ids0⟩ := entry
    by_cases hf : (walkFsm trans alpha anything initS finals T0 startS false).length < byteLen T0
    · have hT0 : T0 ≠ [] := by
        intro h0
        rw [h0] at hf
        simp [byteLen, walkFsm_nil] at hf
      simp only [scanChunk, if_pos hf]
      rw [ih]
      constructor
      · intro h T ids hmem
        rcases List.mem_cons.mp hmem with heq | hm
        · obtain ⟨h1, h2⟩ := Prod.mk.injEq .. ▸ heq
          subst h1; subst h2
          exact fun h0 => absurd h0 hT0
        · exact h T ids hm
      · intro h T ids hm
        exact h T ids (List.mem_cons_of_mem _ hm)
    · cases hT0 : T0 with
      | nil =>
        subst hT0
        have hscan : scanChunk trans alpha anything initS finals startS (([], ids0) :: rest) =
            match pushTokenIds ([] : List Int) ids0 with
            | none => none
            | some prs =>
              (scanChunk trans alpha anything initS finals startS rest).map
                (fun r => prs ++ r) := by
          simp only [scanChunk, walkFsm_nil, byteLen, List.length_nil]
          rw [if_neg (lt_irrefl 0)]
        cases ids0 with
        | nil =>
          rw [hscan]
          simp only [pushTokenIds]
          rw [isSome_map]
          rw [ih]
          constructor
          · intro h T ids hmem
            rcases List.mem_cons.mp hmem with heq | hm
            · injection heq with h1 h2
              subst h2
              intro _; rfl
            · exact h T ids hm
          · intro h T ids hm
            exact h T ids (List.mem_cons_of_mem _ hm)
        | cons i0 is =>
          rw [hscan]
          simp only [pushTokenIds, List.getLast?_nil]
          constructor
          · intro h; simp at h
          · intro h
            exact absurd (h [] (i0 :: is) (List.mem_cons_self _ _) rfl) (by simp)
      | cons c0 cs0 =>
        subst hT0
        -- the walk is at least as long as the positive byte length, so nonempty
        have hne : walkFsm trans alpha anything initS finals (c0 :: cs0) startS false ≠ [] := by
          intro h0
          rw [h0] at hf
          simp only [List.length_nil] at hf
          exact hf (byteLen_pos (by simp))
        obtain ⟨e0, he0⟩ :
            ∃ e0, (walkFsm trans alpha anything initS finals (c0 :: cs0) startS false).getLast? =
              some e0 := by
          cases hw : (walkFsm trans alpha anything initS finals (c0 :: cs0) startS false).getLast? with
          | none => exact absurd (List.getLast?_eq_none_iff.mp hw) hne
          | some e0 => exact ⟨e0, rfl⟩
        simp only [scanChunk, if_neg hf, pushTokenIds_getLast_some he0]
        rw [isSome_map]
        rw [ih]
        constructor
        · intro h T ids hmem
          rcases List.mem_cons.mp hmem with heq | hm
          · injection heq with h1 h2
            subst h1
            intro h0
            simp at h0
          · exact h T ids hm
        · intro h T ids hm
          exact h T ids (List.mem_cons_of_mem _ hm)

/-- The chunk scan never depends on the final-state set. -/
theorem scanChunk_finals_eq (trans : List ((Int × Int) × Int)) (alpha : List (Char × Int))
    (anything : Int) (initS : Int) (startS : Int) (f1 f2 : List Int) :
    ∀ vocab : List (List Char × List Int),
      scanChunk trans alpha anything initS f1 startS vocab =
        scanChunk trans alpha anything initS f2 startS vocab := by
  intro vocab
  induction vocab with
  | nil => rfl
  | cons entry rest ih =>
    obtain ⟨T0, ids0⟩ := entry
    cases hch : chainStates trans alpha anything T0 startS with
    | some tr =>
      have h1 := walkFsm_false_chain_some initS f1 hch
      have h2 := walkFsm_false_chain_some initS f2 hch
      simp only [scanChunk, h1, h2, ih]
    | none =>
      have hT0 : T0 ≠ [] := by
        intro h0
        rw [h0] at hch
        simp [chainStates] at hch
      have hlt : ∀ f : List Int,
          (walkFsm trans alpha anything initS f T0 startS false).length < byteLen T0 := by
        intro f
        rcases walkFsm_chain_none_false initS f hch with heq | ⟨hl, _⟩
        · rw [heq]
          simpa using byteLen_pos hT0
        · exact lt_of_lt_of_le hl (length_le_byteLen T0)
      simp only [scanChunk, if_pos (hlt f1), if_pos (hlt f2), ih]

/-- Scanning a concatenation of chunks is scanning the chunks separately and
concatenating, with failure in either part failing the whole. -/
theorem scanChunk_append (trans : List ((Int × Int) × Int)) (alpha : List (Char × Int))
    (anything : Int) (initS : Int) (finals : List Int) (startS : Int) :
    ∀ v1 v2 : List (List Char × List Int),
      scanChunk trans alpha anything initS finals startS (v1 ++ v2) =
        (scanChunk trans alpha anything initS finals startS v1).bind
          (fun a => (scanChunk trans alpha anything initS finals startS v2).map
            (fun b => a ++ b)) := by
  intro v1
  induction v1 with
  | nil =>
    intro v2
    cases h2 : scanChunk trans alpha anything initS finals startS v2 <;>
      simp [scanChunk, h2]
  | cons entry rest ih =>
    obtain ⟨T0, ids0⟩ := entry
    intro v2
    simp only [List.cons_append, scanChunk]
    by_cases hf : (walkFsm trans alpha anything initS finals T0 startS false).length < byteLen T0
    · rw [if_pos hf, if_pos hf]
      exact ih v2
    · rw [if_neg hf, if_neg hf]
      cases hp : pushTokenIds (walkFsm trans alpha anything initS finals T0 startS false) ids0 with
      | none => simp [hp]
      | some prs =>
        simp only [hp, List.append_eq]
        rw [ih]
        cases h1 : scanChunk trans alpha anything initS finals startS rest <;>
          cases h2 : scanChunk trans alpha anything initS finals startS v2 <;>
            simp [List.append_assoc]

/-! ### The chunked parallel scan computes the same result as one pass -/

theorem le_sixteen_mul_tpt (n : Nat) : n ≤ 16 * tokensPerThread n := by
  unfold tokensPerThread
  omega

/-- Processing the per-worker chunks with indices `i, i+1, ..., 15` and
concatenating equals processing the vocabulary suffix from position
`i * tokens_per_thread` in one pass. -/
theorem scanRangeAux (trans : List ((Int × Int) × Int)) (alpha : List (Char × Int))
    (anything : Int) (initS : Int) (finals : List Int) (startS : Int)
    (vocab : List (List Char × List Int)) :
    ∀ k i, i + k = 16 →
      (optionMapM
        (fun c => scanChunk trans alpha anything initS finals startS
          ((vocab.drop c.1).take (c.2 - c.1)))
        ((List.range' i k).filterMap (fun j =>
          let start := j * tokensPerThread vocab.length
          let stop := start + tokensPerThread vocab.length
          let stop := if vocab.length < stop then vocab.length else stop
          if start < vocab.length then some (start, stop) else none))).map List.flatten =
      scanChunk trans alpha anything initS finals startS
        (vocab.drop (i * tokensPerThread vocab.length)) := by
  intro k
  induction k with
  | zero =>
    intro i hi
    have h16 : i = 16 := by omega
    subst h16
    have hnil : List.range' 16 0 = ([] : List Nat) := rfl
    rw [hnil, List.filterMap_nil]
    rw [List.drop_eq_nil_of_le]
    · rfl
    · exact le_sixteen_mul_tpt vocab.length
  | succ k ihk =>
    intro i hi
    have hi' : (i + 1) + k = 16 := by omega
    rw [List.range'_succ, List.filterMap_cons]
    by_cases hlt : i * tokensPerThread vocab.length < vocab.length
    · simp only [if_pos hlt]
      have hslice :
          (vocab.drop (i * tokensPerThread vocab.length)).take
            ((if vocab.length <
                i * tokensPerThread vocab.length + tokensPerThread vocab.length then
                vocab.length
              else i * tokensPerThread vocab.length + tokensPerThread vocab.length) -
              i * tokensPerThread vocab.length) =
          (vocab.drop (i * tokensPerThread vocab.length)).take
            (tokensPerThread vocab.length) := by
        have hlen := List.length_drop (i * tokensPerThread vocab.length) vocab
        by_cases hcap : vocab.length <
            i * tokensPerThread vocab.length + tokensPerThread vocab.length
        · rw [if_pos hcap]
          rw [List.take_of_length_le (by omega), List.take_of_length_le (by omega)]
        · rw [if_neg hcap]
          congr 1
          omega
      have hsplit : vocab.drop (i * tokensPerThread vocab.length) =
          (vocab.drop (i * tokensPerThread vocab.length)).take
            (tokensPerThread vocab.length) ++
          vocab.drop ((i + 1) * tokensPerThread vocab.length) := by
        have hdd : (vocab.drop (i * tokensPerThread vocab.length)).drop
            (tokensPerThread vocab.length) =
            vocab.drop ((i + 1) * tokensPerThread vocab.length) := by
          rw [List.drop_drop]
          congr 1
          rw [Nat.succ_mul]
        rw [← hdd, List.take_append_drop]
      conv_rhs => rw [hsplit]
      rw [scanChunk_append]
      simp only [optionMapM, hslice]
      have hih := ihk (i + 1) hi'
      cases hsc : scanChunk trans alpha anything initS finals startS
          ((vocab.drop (i * tokensPerThread vocab.length)).take
            (tokensPerThread vocab.length)) with
      | none => simp
      | some a =>
        rw [← hih]
        cases hrest : optionMapM
            (fun c => scanChunk trans alpha anything initS finals startS
              ((vocab.drop c.1).take (c.2 - c.1)))
            ((List.range' (i + 1) k).filterMap (fun j =>
              let start := j * tokensPerThread vocab.length
              let stop := start + tokensPerThread vocab.length
              let stop := if vocab.length < stop then vocab.length else stop
              if start < vocab.length then some (start, stop) else none)) with
        | none => simp
        | some bs => simp
    · simp only [if_neg hlt]
      have hle : vocab.length ≤ i * tokensPerThread vocab.length := Nat.le_of_not_lt hlt
      have h1 : vocab.drop (i * tokensPerThread vocab.length) = [] :=
        List.drop_eq_nil_of_le hle
      have h2 : vocab.drop ((i + 1) * tokensPerThread vocab.length) = [] := by
        refine List.drop_eq_nil_of_le ?_
        calc vocab.length ≤ i * tokensPerThread vocab.length := hle
          _ ≤ (i + 1) * tokensPerThread vocab.length :=
            Nat.mul_le_mul_right _ (by omega)
      rw [ihk (i + 1) hi', h1, h2]

/-- The always-parallel path computes the one-pass scan. -/
theorem stateScanTokensPar_eq (trans : List ((Int × Int) × Int)) (alpha : List (Char × Int))
    (anything : Int) (initS : Int) (finals : List Int)
    (vocab : List (List Char × List Int)) (startS : Int) :
    stateScanTokensPar trans alpha anything initS finals vocab startS =
      scanChunk trans alpha anything initS finals startS vocab := by
  unfold stateScanTokensPar parChunks
  rw [List.range_eq_range']
  have h := scanRangeAux trans alpha anything initS finals startS vocab 16 0 rfl
  simpa using h

/-- The always-single-threaded path computes the one-pass scan. -/
theorem stateScanTokensSingle_eq (trans : List ((Int × Int) × Int)) (alpha : List (Char × Int))
    (anything : Int) (initS : Int) (finals : List Int)
    (vocab : List (List Char × List Int)) (startS : Int) :
    stateScanTokensSingle trans alpha anything initS finals vocab startS =
      scanChunk trans alpha anything initS finals startS vocab := by
  unfold stateScanTokensSingle
  simp only [optionMapM]
  have hslice : (vocab.drop 0).take (vocab.length - 0) = vocab := by
    rw [List.drop_zero, Nat.sub_zero, List.take_length]
  rw [hslice]
  cases h : scanChunk trans alpha anything initS finals startS vocab <;> simp

/-- `_state_scan_tokens` computes the one-pass scan regardless of which branch
the 1000-entry threshold selects. -/
theorem stateScanTokens_eq_scanChunk (trans : List ((Int × Int) × Int))
    (alpha : List (Char × Int)) (anything : Int) (initS : Int) (finals : List Int)
    (vocab : List (List Char × List Int)) (startS : Int) :
    stateScanTokens trans alpha anything initS finals vocab startS =
      scanChunk trans alpha anything initS finals startS vocab := by
  unfold stateScanTokens tokenChunks
  by_cases h : 1000 < vocab.length
  · rw [if_pos h]
    have hpar := stateScanTokensPar_eq trans alpha anything initS finals vocab startS
    unfold stateScanTokensPar at hpar
    exact hpar
  · rw [if_neg h]
    have hsingle := stateScanTokensSingle_eq trans alpha anything initS finals vocab startS
    unfold stateScanTokensSingle at hsingle
    exact hsingle

/-! ### Scan lemmas at the `_state_scan_tokens` entry point -/

theorem stateScanTokens_mem {trans : List ((Int × Int) × Int)} {alpha : List (Char × Int)}
    {anything : Int} {initS : Int} {finals : List Int}
    {vocab : List (List Char × List Int)} {startS : Int} {res : List (Int × Int)}
    (h : stateScanTokens trans alpha anything initS finals vocab startS = some res)
    (id e : Int) :
    (id, e) ∈ res ↔ ∃ T ids, (T, ids) ∈ vocab ∧ id ∈ ids ∧
      ¬((walkFsm trans alpha anything initS finals T startS false).length < byteLen T) ∧
      (walkFsm trans alpha anything initS finals T startS false).getLast? = some e := by
  rw [stateScanTokens_eq_scanChunk] at h
  exact scanChunk_mem trans alpha anything initS finals startS vocab res h id e

theorem stateScanTokens_isSome_iff (trans : List ((Int × Int) × Int))
    (alpha : List (Char × Int)) (anything : Int) (initS : Int) (finals : List Int)
    (vocab : List (List Char × List Int)) (startS : Int) :
    (stateScanTokens trans alpha anything initS finals vocab startS).isSome = true ↔
      ∀ T ids, (T, ids) ∈ vocab → T = [] → ids = [] := by
  rw [stateScanTokens_eq_scanChunk]
  exact scanChunk_isSome_iff trans alpha anything initS finals startS vocab

theorem stateScanTokens_finals_eq (trans : List ((Int × Int) × Int))
    (alpha : List (Char × Int)) (anything : Int) (initS : Int)
    (vocab : List (List Char × List Int)) (startS : Int) (f1 f2 : List Int) :
    stateScanTokens trans alpha anything initS f1 vocab startS =
      stateScanTokens trans alpha anything initS f2 vocab startS := by
  rw [stateScanTokens_eq_scanChunk, stateScanTokens_eq_scanChunk]
  exact scanChunk_finals_eq trans alpha anything initS startS f1 f2 vocab

/-- Every end state a scan reports is a transition target of the automaton. -/
theorem stateScanTokens_end_mem {trans : List ((Int × Int) × Int)} {alpha : List (Char × Int)}
    {anything : Int} {initS : Int} {finals : List Int}
    {vocab : List (List Char × List Int)} {startS : Int} {ps : List (Int × Int)}
    (h : stateScanTokens trans alpha anything initS finals vocab startS = some ps)
    {id e : Int} (hmem : (id, e) ∈ ps) : e ∈ transValues trans := by
  obtain ⟨T, ids, _, _, _, hlast⟩ := (stateScanTokens_mem h id e).mp hmem
  exact walkFsm_mem_transValues (List.mem_of_mem_getLast? hlast)

/-! ### Lemmas about the sorted-map insertion -/

theorem mapInsert_cons_lt {α : Type} {k k' : Int} (h : k < k') (v v' : α)
    (rest : List (Int × α)) :
    mapInsert k v ((k', v') :: rest) = (k, v) :: (k', v') :: rest := by
  simp [mapInsert, h]

theorem mapInsert_cons_eq {α : Type} {k : Int} (v v' : α) (rest : List (Int × α)) :
    mapInsert k v ((k, v') :: rest) = (k, v) :: rest := by
  simp [mapInsert, lt_irrefl]

theorem mapInsert_cons_gt {α : Type} {k k' : Int} (h1 : ¬k < k') (h2 : k ≠ k') (v v' : α)
    (rest : List (Int × α)) :
    mapInsert k v ((k', v') :: rest) = (k', v') :: mapInsert k v rest := by
  simp [mapInsert, h1, h2]

theorem assocGet_mapInsert {α : Type} (k q : Int) (v : α) :
    ∀ m : List (Int × α),
      assocGet q (mapInsert k v m) = if k = q then some v else assocGet q m := by
  intro m
  induction m with
  | nil =>
    by_cases h : k = q <;> simp [mapInsert, assocGet, h]
  | cons kv rest ih =>
    obtain ⟨k', v'⟩ := kv
    by_cases h1 : k < k'
    · rw [mapInsert_cons_lt h1]
      by_cases h2 : k = q <;> simp [assocGet, h2]
    · by_cases h2 : k = k'
      · subst h2
        rw [mapInsert_cons_eq]
        by_cases h3 : k = q <;> simp [assocGet, h3]
      · rw [mapInsert_cons_gt h1 h2]
        by_cases h3 : k' = q
        · have hkq : ¬k = q := fun h => h2 (h.trans h3.symm)
          simp [assocGet, h3, hkq]
        · simp [assocGet, h3, ih]

theorem mem_mapInsert {α : Type} {k : Int} {v : α} :
    ∀ {m : List (Int × α)} {a : Int} {b : α},
      (a, b) ∈ mapInsert k v m → (a = k ∧ b = v) ∨ (a, b) ∈ m := by
  intro m
  induction m with
  | nil =>
    intro a b h
    simp only [mapInsert, List.mem_singleton] at h
    injection h with h1 h2
    exact Or.inl ⟨h1, h2⟩
  | cons kv rest ih =>
    obtain ⟨k', v'⟩ := kv
    intro a b h
    by_cases h1 : k < k'
    · rw [mapInsert_cons_lt h1] at h
      rcases List.mem_cons.mp h with heq | h'
      · injection heq with ha hb
        exact Or.inl ⟨ha, hb⟩
      · exact Or.inr h'
    · by_cases h2 : k = k'
      · subst h2
        rw [mapInsert_cons_eq] at h
        rcases List.mem_cons.mp h with heq | h'
        · injection heq with ha hb
          exact Or.inl ⟨ha, hb⟩
        · exact Or.inr (List.mem_cons_of_mem _ h')
      · rw [mapInsert_cons_gt h1 h2] at h
        rcases List.mem_cons.mp h with heq | h'
        · exact Or.inr (List.mem_cons.mpr (Or.inl heq))
        · rcases ih h' with h'' | h''
          · exact Or.inl h''
          · exact Or.inr (List.mem_cons_of_mem _ h'')

theorem mem_mapInsert_self {α : Type} (k : Int) (v : α) :
    ∀ m : List (Int × α), (k, v) ∈ mapInsert k v m := by
  intro m
  induction m with
  | nil => simp [mapInsert]
  | cons kv rest ih =>
    obtain ⟨k', v'⟩ := kv
    by_cases h1 : k < k'
    · rw [mapInsert_cons_lt h1]
      exact List.mem_cons_self _ _
    · by_cases h2 : k = k'
      · subst h2
        rw [mapInsert_cons_eq]
        exact List.mem_cons_self _ _
      · rw [mapInsert_cons_gt h1 h2]
        exact List.mem_cons_of_mem _ ih

theorem mem_mapInsert_of_ne {α : Type} {k a : Int} (v : α) (hne : a ≠ k) :
    ∀ {m : List (Int × α)} {b : α}, (a, b) ∈ m → (a, b) ∈ mapInsert k v m := by
  intro m
  induction m with
  | nil => intro b h; simp at h
  | cons kv rest ih =>
    obtain ⟨k', v'⟩ := kv
    intro b h
    by_cases h1 : k < k'
    · rw [mapInsert_cons_lt h1]
      exact List.mem_cons_of_mem _ h
    · by_cases h2 : k = k'
      · subst h2
        rw [mapInsert_cons_eq]
        rcases List.mem_cons.mp h with heq | hm
        · injection heq with ha hb
          exact absurd ha hne
        · exact List.mem_cons_of_mem _ hm
      · rw [mapInsert_cons_gt h1 h2]
        rcases List.mem_cons.mp h with heq | hm
        · exact List.mem_cons.mpr (Or.inl heq)
        · exact List.mem_cons_of_mem _ (ih hm)

theorem mapInsert_ne_nil {α : Type} (k : Int) (v : α) (m : List (Int × α)) :
    mapInsert k v m ≠ [] := by
  cases m with
  | nil => simp [mapInsert]
  | cons kv rest =>
    obtain ⟨k', v'⟩ := kv
    by_cases h1 : k < k'
    · rw [mapInsert_cons_lt h1]
      simp
    · by_cases h2 : k = k'
      · subst h2
        rw [mapInsert_cons_eq]
        simp
      · rw [mapInsert_cons_gt h1 h2]
        simp

theorem exists_mem_mapInsert {α : Type} (k a : Int) (v : α) (m : List (Int × α))
    (h : ∃ b, (a, b) ∈ m) : ∃ b, (a, b) ∈ mapInsert k v m := by
  by_cases hak : a = k
  · subst hak
    exact ⟨v, mem_mapInsert_self a v m⟩
  · obtain ⟨b, hb⟩ := h
    exact ⟨b, mem_mapInsert_of_ne v hak hb⟩

/-! ### Lemmas about the build accumulator insertion -/

theorem assocGet_accInsert_self (acc : List (Int × List (Int × Int))) (s id e : Int) :
    assocGet s (accInsert acc s id e) =
      some (mapInsert id e ((assocGet s acc).getD [])) := by
  unfold accInsert
  rw [assocGet_mapInsert]
  simp

theorem assocGet_accInsert_other {s s' : Int} (hne : s' ≠ s)
    (acc : List (Int × List (Int × Int))) (id e : Int) :
    assocGet s' (accInsert acc s id e) = assocGet s' acc := by
  unfold accInsert
  rw [assocGet_mapInsert]
  rw [if_neg (fun h => hne h.symm)]

/-! ### Lemmas about the pair-processing loop of the build -/

theorem processPairs_stack_mem (seen : List Int) (s : Int) :
    ∀ (ps : List (Int × Int)) (stack : List Int) (acc : List (Int × List (Int × Int))) (x : Int),
      x ∈ (processPairs seen s ps stack acc).1 ↔
        x ∈ stack ∨ ∃ id, (id, x) ∈ ps ∧ listMem x seen = false := by
  intro ps
  induction ps with
  | nil => simp [processPairs]
  | cons p rest ih =>
    obtain ⟨id0, e0⟩ := p
    intro stack acc x
    simp only [processPairs]
    rw [ih]
    by_cases hs : listMem e0 seen
    · rw [if_pos hs]
      constructor
      · rintro (hx | ⟨id, hid, hf⟩)
        · exact Or.inl hx
        · exact Or.inr ⟨id, List.mem_cons_of_mem _ hid, hf⟩
      · rintro (hx | ⟨id, hid, hf⟩)
        · exact Or.inl hx
        · rcases List.mem_cons.mp hid with heq | hm
          · injection heq with h1 h2
            subst h2
            rw [hs] at hf
            cases hf
          · exact Or.inr ⟨id, hm, hf⟩
    · rw [if_neg hs]
      constructor
      · rintro (hx | ⟨id, hid, hf⟩)
        · rcases List.mem_cons.mp hx with rfl | hx'
          · exact Or.inr ⟨id0, List.mem_cons_self _ _, by simpa using hs⟩
          · exact Or.inl hx'
        · exact Or.inr ⟨id, List.mem_cons_of_mem _ hid, hf⟩
      · rintro (hx | ⟨id, hid, hf⟩)
        · exact Or.inl (List.mem_cons_of_mem _ hx)
        · rcases List.mem_cons.mp hid with heq | hm
          · injection heq with h1 h2
            subst h2
            exact Or.inl (List.mem_cons_self _ _)
          · exact Or.inr ⟨id, hm, hf⟩

theorem processPairs_acc_other (seen : List Int) (s : Int) {s' : Int} (hne : s' ≠ s) :
    ∀ (ps : List (Int × Int)) (stack : List Int) (acc : List (Int × List (Int × Int))),
      assocGet s' (processPairs seen s ps stack acc).2 = assocGet s' acc := by
  intro ps
  induction ps with
  | nil => simp [processPairs]
  | cons p rest ih =>
    obtain ⟨id0, e0⟩ := p
    intro stack acc
    simp only [processPairs]
    rw [ih]
    exact assocGet_accInsert_other hne acc id0 e0

theorem processPairs_acc_self_mem (seen : List Int) (s : Int) :
    ∀ (ps : List (Int × Int)) (stack : List Int) (acc : List (Int × List (Int × Int)))
      (inner : List (Int × Int)),
      assocGet s (processPairs seen s ps stack acc).2 = some inner →
      ∀ id e : Int, (id, e) ∈ inner →
        (id, e) ∈ ps ∨ ∃ inner0, assocGet s acc = some inner0 ∧ (id, e) ∈ inner0 := by
  intro ps
  induction ps with
  | nil =>
    intro stack acc inner hget id e hmem
    exact Or.inr ⟨inner, hget, hmem⟩
  | cons p rest ih =>
    obtain ⟨id0, e0⟩ := p
    intro stack acc inner hget id e hmem
    simp only [processPairs] at hget
    rcases ih _ (accInsert acc s id0 e0) inner hget id e hmem with hin | ⟨inner0, hget0, hmem0⟩
    · exact Or.inl (List.mem_cons_of_mem _ hin)
    · rw [assocGet_accInsert_self] at hget0
      injection hget0 with hget0'
      subst hget0'
      rcases mem_mapInsert hmem0 with ⟨ha, hb⟩ | hin0
      · subst ha; subst hb
        exact Or.inl (List.mem_cons_self _ _)
      · cases hacc : assocGet s acc with
        | none => rw [hacc] at hin0; simp at hin0
        | some inner1 =>
          rw [hacc] at hin0
          simp only [Option.getD_some] at hin0
          exact Or.inr ⟨inner1, rfl, hin0⟩

theorem processPairs_acc_self_stable (seen : List Int) (s : Int) :
    ∀ (ps : List (Int × Int)) (stack : List Int) (acc : List (Int × List (Int × Int)))
      (id : Int),
      (∃ inner e', assocGet s acc = some inner ∧ (id, e') ∈ inner) →
      ∃ inner e', assocGet s (processPairs seen s ps stack acc).2 = some inner ∧
        (id, e') ∈ inner := by
  intro ps
  induction ps with
  | nil =>
    intro stack acc id h
    exact h
  | cons p rest ih =>
    obtain ⟨id0, e0⟩ := p
    intro stack acc id h
    obtain ⟨inner, e', hget, hmem⟩ := h
    simp only [processPairs]
    apply ih
    obtain ⟨b, hb⟩ := exists_mem_mapInsert id0 id e0 inner ⟨e', hmem⟩
    refine ⟨mapInsert id0 e0 ((assocGet s acc).getD []), b, assocGet_accInsert_self acc s id0 e0, ?_⟩
    rw [hget]
    simpa using hb

theorem processPairs_acc_complete (seen : List Int) (s : Int) :
    ∀ (ps : List (Int × Int)) (stack : List Int) (acc : List (Int × List (Int × Int)))
      (id e : Int), (id, e) ∈ ps →
      ∃ inner e', assocGet s (processPairs seen s ps stack acc).2 = some inner ∧
        (id, e') ∈ inner := by
  intro ps
  induction ps with
  | nil => intro stack acc id e h; simp at h
  | cons p rest ih =>
    obtain ⟨id0, e0⟩ := p
    intro stack acc id e hmem
    rcases List.mem_cons.mp hmem with heq | hm
    · injection heq with h1 h2
      subst h1
      simp only [processPairs]
      apply processPairs_acc_self_stable
      refine ⟨mapInsert id e0 ((assocGet s acc).getD []), e0,
        assocGet_accInsert_self acc s id e0, mem_mapInsert_self id e0 _⟩
    · simp only [processPairs]
      exact ih _ _ id e hm

theorem processPairs_stack_head (seen : List Int) (s : Int) :
    ∀ (ps : List (Int × Int)) (stack : List Int) (acc : List (Int × List (Int × Int))),
      (processPairs seen s ps stack acc).1 = stack ∨
      ∃ e tl, (processPairs seen s ps stack acc).1 = e :: tl ∧ listMem e seen = false := by
  intro ps
  induction ps with
  | nil => intro stack acc; exact Or.inl rfl
  | cons p rest ih =>
    obtain ⟨id0, e0⟩ := p
    intro stack acc
    simp only [processPairs]
    by_cases hs : listMem e0 seen
    · rw [if_pos hs]
      exact ih stack _
    · rw [if_neg hs]
      rcases ih (e0 :: stack) (accInsert acc s id0 e0) with heq | ⟨e, tl, heq, hf⟩
      · exact Or.inr ⟨e0, stack, heq, by simpa using hs⟩
      · exact Or.inr ⟨e, tl, heq, hf⟩

theorem processPairs_acc_nonempty (seen : List Int) (s : Int) :
    ∀ (ps : List (Int × Int)) (stack : List Int) (acc : List (Int × List (Int × Int))),
      (∀ s1 inner, assocGet s1 acc = some inner → inner ≠ []) →
      ∀ s1 inner, assocGet s1 (processPairs seen s ps stack acc).2 = some inner →
        inner ≠ [] := by
  intro ps
  induction ps with
  | nil => intro stack acc h; exact h
  | cons p rest ih =>
    obtain ⟨id0, e0⟩ := p
    intro stack acc h
    simp only [processPairs]
    apply ih
    intro s1 inner hget
    by_cases hs1 : s1 = s
    · subst hs1
      rw [assocGet_accInsert_self] at hget
      injection hget with hget'
      subst hget'
      exact mapInsert_ne_nil _ _ _
    · rw [assocGet_accInsert_other hs1] at hget
      exact h s1 inner hget

/-! ### The frontier-loop invariant of the index build -/

/-- Invariant of one iteration of the `while let Some(start_state)` loop:
everything on the frontier or already seen is reachable, seen states were
scanned successfully and their discovered end states are seen or still on
the frontier, and the accumulator holds exactly the recorded ids of seen
states with a nonempty scan. -/
structure BuildInv (trans : List ((Int × Int) × Int)) (alpha : List (Char × Int))
    (anything : Int) (initS : Int) (finals : List Int)
    (vocab : List (List Char × List Int)) (stack seen : List Int)
    (acc : List (Int × List (Int × Int))) : Prop where
  stack_reach : ∀ x ∈ stack, Reachable trans alpha anything initS finals vocab x
  seen_reach : ∀ x ∈ seen, Reachable trans alpha anything initS finals vocab x
  seen_scan : ∀ x ∈ seen,
    ∃ ps, stateScanTokens trans alpha anything initS finals vocab x = some ps
  closure : ∀ x ∈ seen, ∀ ps,
    stateScanTokens trans alpha anything initS finals vocab x = some ps →
    ∀ id e : Int, (id, e) ∈ ps → e ∈ seen ∨ e ∈ stack
  init_mem : initS ∈ seen ∨ initS ∈ stack
  acc_sound : ∀ x inner, assocGet x acc = some inner →
    x ∈ seen ∧ inner ≠ [] ∧
    ∀ id e : Int, (id, e) ∈ inner →
      ∃ ps, stateScanTokens trans alpha anything initS finals vocab x = some ps ∧
        (id, e) ∈ ps
  acc_complete : ∀ x ∈ seen, ∀ ps,
    stateScanTokens trans alpha anything initS finals vocab x = some ps →
    ∀ id e : Int, (id, e) ∈ ps →
      ∃ inner e', assocGet x acc = some inner ∧ (id, e') ∈ inner

theorem buildInv_start (trans : List ((Int × Int) × Int)) (alpha : List (Char × Int))
    (anything : Int) (initS : Int) (finals : List Int)
    (vocab : List (List Char × List Int)) :
    BuildInv trans alpha anything initS finals vocab [initS] [] [] := by
  constructor
  · intro x hx
    rcases List.mem_singleton.mp hx with rfl
    exact Reachable.base
  · intro x hx; simp at hx
  · intro x hx; simp at hx
  · intro x hx; simp at hx
  · exact Or.inr (List.mem_singleton.mpr rfl)
  · intro x inner hget; simp [assocGet] at hget
  · intro x hx; simp at hx

theorem buildInv_step {trans : List ((Int × Int) × Int)} {alpha : List (Char × Int)}
    {anything : Int} {initS : Int} {finals : List Int}
    {vocab : List (List Char × List Int)} {s : Int} {rest seen : List Int}
    {acc : List (Int × List (Int × Int))}
    (hinv : BuildInv trans alpha anything initS finals vocab (s :: rest) seen acc)
    {ps : List (Int × Int)}
    (hps : stateScanTokens trans alpha anything initS finals vocab s = some ps) :
    BuildInv trans alpha anything initS finals vocab
      (processPairs seen s ps rest acc).1 (s :: seen)
      (processPairs seen s ps rest acc).2 := by
  have hsreach : Reachable trans alpha anything initS finals vocab s :=
    hinv.stack_reach s (List.mem_cons_self _ _)
  constructor
  · -- stack_reach
    intro x hx
    rcases (processPairs_stack_mem seen s ps rest acc x).mp hx with hx' | ⟨id, hid, _⟩
    · exact hinv.stack_reach x (List.mem_cons_of_mem _ hx')
    · exact Reachable.step hsreach hps hid
  · -- seen_reach
    intro x hx
    rcases List.mem_cons.mp hx with rfl | hx'
    · exact hsreach
    · exact hinv.seen_reach x hx'
  · -- seen_scan
    intro x hx
    rcases List.mem_cons.mp hx with rfl | hx'
    · exact ⟨ps, hps⟩
    · exact hinv.seen_scan x hx'
  · -- closure
    intro x hx ps' hps' id e hmem
    rcases List.mem_cons.mp hx with rfl | hx'
    · rw [hps] at hps'
      injection hps' with hps''
      subst hps''
      by_cases hs : listMem e seen
      · exact Or.inl (List.mem_cons_of_mem _ ((listMem_iff e seen).mp hs))
      · exact Or.inr ((processPairs_stack_mem seen x ps rest acc e).mpr
          (Or.inr ⟨id, hmem, by simpa using hs⟩))
    · rcases hinv.closure x hx' ps' hps' id e hmem with h | h
      · exact Or.inl (List.mem_cons_of_mem _ h)
      · rcases List.mem_cons.mp h with rfl | h'
        · exact Or.inl (List.mem_cons_self _ _)
        · exact Or.inr ((processPairs_stack_mem seen s ps rest acc e).mpr (Or.inl h'))
  · -- init_mem
    rcases hinv.init_mem with h | h
    · exact Or.inl (List.mem_cons_of_mem _ h)
    · rcases List.mem_cons.mp h with rfl | h'
      · exact Or.inl (List.mem_cons_self _ _)
      · exact Or.inr ((processPairs_stack_mem seen s ps rest acc initS).mpr (Or.inl h'))
  · -- acc_sound
    intro x inner hget
    by_cases hxs : x = s
    · subst hxs
      refine ⟨List.mem_cons_self _ _, ?_, ?_⟩
      · refine processPairs_acc_nonempty seen x ps rest acc ?_ x inner hget
        intro s1 inner1 hget1
        exact (hinv.acc_sound s1 inner1 hget1).2.1
      · intro id e hmem
        rcases processPairs_acc_self_mem seen x ps rest acc inner hget id e hmem with
          hin | ⟨inner0, hget0, hmem0⟩
        · exact ⟨ps, hps, hin⟩
        · exact (hinv.acc_sound x inner0 hget0).2.2 id e hmem0
    · rw [processPairs_acc_other seen s hxs] at hget
      obtain ⟨hxseen, hne, hpairs⟩ := hinv.acc_sound x inner hget
      exact ⟨List.mem_cons_of_mem _ hxseen, hne, hpairs⟩
  · -- acc_complete
    intro x hx ps' hps' id e hmem
    by_cases hxs : x = s
    · subst hxs
      rw [hps] at hps'
      injection hps' with hps''
      subst hps''
      exact processPairs_acc_complete seen x ps rest acc id e hmem
    · have hx' : x ∈ seen := by
        rcases List.mem_cons.mp hx with rfl | h'
        · exact absurd rfl hxs
        · exact h'
      obtain ⟨inner, e', hget, hin⟩ := hinv.acc_complete x hx' ps' hps' id e hmem
      refine ⟨inner, e', ?_, hin⟩
      rw [processPairs_acc_other seen s hxs]
      exact hget

/-- What a completed (`ok`) run of the frontier loop guarantees, given the
invariant: the final mapping's keys are exactly the reachable states with a
nonempty scan, and each entry records exactly the scan's pair ids. -/
theorem buildLoop_ok_extract (trans : List ((Int × Int) × Int)) (alpha : List (Char × Int))
    (anything : Int) (initS : Int) (finals : List Int)
    (vocab : List (List Char × List Int)) :
    ∀ (fuel : Nat) (stack seen : List Int) (acc m : List (Int × List (Int × Int))),
      buildLoop trans alpha anything initS finals vocab fuel stack seen acc = .ok m →
      BuildInv trans alpha anything initS finals vocab stack seen acc →
      (∀ x : Int, (∃ inner, assocGet x m = some inner) ↔
        (Reachable trans alpha anything initS finals vocab x ∧
         ∃ ps, stateScanTokens trans alpha anything initS finals vocab x = some ps ∧
           ps ≠ [])) ∧
      (∀ x inner, assocGet x m = some inner →
        (∀ id e : Int, (id, e) ∈ inner →
          ∃ ps, stateScanTokens trans alpha anything initS finals vocab x = some ps ∧
            (id, e) ∈ ps) ∧
        (∀ ps, stateScanTokens trans alpha anything initS finals vocab x = some ps →
          ∀ id e : Int, (id, e) ∈ ps → ∃ e', (id, e') ∈ inner)) := by
  intro fuel
  induction fuel with
  | zero =>
    intro stack seen acc m h
    simp [buildLoop] at h
  | succ fuel ih =>
    intro stack seen acc m h hinv
    cases stack with
    | nil =>
      simp only [buildLoop] at h
      injection h with h'
      subst h'
      have hseen_of_reach : ∀ x : Int,
          Reachable trans alpha anything initS finals vocab x → x ∈ seen := by
        intro x hx
        induction hx with
        | base =>
          rcases hinv.init_mem with h' | h'
          · exact h'
          · simp at h'
        | step hr hscan hmem ihr =>
          rcases hinv.closure _ ihr _ hscan _ _ hmem with h' | h'
          · exact h'
          · simp at h'
      constructor
      · intro x
        constructor
        · rintro ⟨inner, hget⟩
          obtain ⟨hxseen, hne, hpairs⟩ := hinv.acc_sound x inner hget
          refine ⟨hinv.seen_reach x hxseen, ?_⟩
          obtain ⟨⟨id, e⟩, hmem⟩ := List.exists_mem_of_ne_nil inner hne
          obtain ⟨ps, hps, hin⟩ := hpairs id e hmem
          refine ⟨ps, hps, ?_⟩
          intro h0
          rw [h0] at hin
          simp at hin
        · rintro ⟨hreach, ps, hps, hne⟩
          have hxseen := hseen_of_reach x hreach
          obtain ⟨⟨id, e⟩, hpmem⟩ := List.exists_mem_of_ne_nil ps hne
          obtain ⟨inner, e', hget, _⟩ := hinv.acc_complete x hxseen ps hps id e hpmem
          exact ⟨inner, hget⟩
      · intro x inner hget
        obtain ⟨hxseen, _, hpairs⟩ := hinv.acc_sound x inner hget
        refine ⟨hpairs, ?_⟩
        intro ps hps id e hmem
        obtain ⟨inner', e', hget', hin'⟩ := hinv.acc_complete x hxseen ps hps id e hmem
        rw [hget] at hget'
        injection hget' with hget''
        subst hget''
        exact ⟨e', hin'⟩
    | cons s rest =>
      cases hscan : stateScanTokens trans alpha anything initS finals vocab s with
      | none => simp [buildLoop, hscan] at h
      | some ps =>
        simp only [buildLoop, hscan] at h
        exact ih _ _ _ _ h (buildInv_step hinv hscan)

/-! ### Termination of the frontier loop -/

/-- The finite universe every frontier entry lives in: the initial state and
all transition targets. -/
def stateUniverse (trans : List ((Int × Int) × Int)) (initS : Int) : List Int :=
  initS :: transValues trans

theorem processPairs_stack_subU {trans : List ((Int × Int) × Int)} {alpha : List (Char × Int)}
    {anything : Int} {initS : Int} {finals : List Int}
    {vocab : List (List Char × List Int)} {s : Int} {ps : List (Int × Int)}
    (hps : stateScanTokens trans alpha anything initS finals vocab s = some ps)
    {seen stack : List Int} {acc : List (Int × List (Int × Int))}
    (hU : ∀ x ∈ stack, x ∈ stateUniverse trans initS) :
    ∀ x ∈ (processPairs seen s ps stack acc).1, x ∈ stateUniverse trans initS := by
  intro x hx
  rcases (processPairs_stack_mem seen s ps stack acc x).mp hx with h | ⟨id, hid, _⟩
  · exact hU x h
  · exact List.mem_cons_of_mem _ (stateScanTokens_end_mem hps hid)

/-- Scanning an unseen universe state strictly shrinks the unseen part of the
universe. -/
theorem card_sdiff_cons_lt {U seen : List Int} {s : Int} (hsU : s ∈ U) (hss : s ∉ seen) :
    (U.toFinset \ (s :: seen).toFinset).card < (U.toFinset \ seen.toFinset).card := by
  have hsub : U.toFinset \ (s :: seen).toFinset ⊆ (U.toFinset \ seen.toFinset).erase s := by
    intro x hx
    rw [List.toFinset_cons] at hx
    rw [Finset.mem_sdiff] at hx
    obtain ⟨hxU, hxni⟩ := hx
    rw [Finset.mem_insert] at hxni
    push_neg at hxni
    rw [Finset.mem_erase, Finset.mem_sdiff]
    exact ⟨hxni.1, hxU, hxni.2⟩
  have hmem : s ∈ U.toFinset \ seen.toFinset := by
    rw [Finset.mem_sdiff, List.mem_toFinset, List.mem_toFinset]
    exact ⟨hsU, hss⟩
  have hpos : 0 < (U.toFinset \ seen.toFinset).card := Finset.card_pos.mpr ⟨s, hmem⟩
  calc (U.toFinset \ (s :: seen).toFinset).card
      ≤ ((U.toFinset \ seen.toFinset).erase s).card := Finset.card_le_card hsub
    _ = (U.toFinset \ seen.toFinset).card - 1 := Finset.card_erase_of_mem hmem
    _ < (U.toFinset \ seen.toFinset).card := by omega

/-- Re-scanning an already seen state leaves the unseen part unchanged. -/
theorem card_sdiff_cons_eq {U seen : List Int} {s : Int} (hss : s ∈ seen) :
    U.toFinset \ (s :: seen).toFinset = U.toFinset \ seen.toFinset := by
  rw [List.toFinset_cons, Finset.insert_eq_self.mpr (List.mem_toFinset.mpr hss)]

theorem not_mem_of_listMem_false {x : Int} {l : List Int} (h : listMem x l = false) :
    x ∉ l := by
  intro hx
  rw [(listMem_iff x l).mpr hx] at h
  cases h

/-- Every configuration whose frontier lives in the state universe runs to
completion on some finite fuel; the bound argument is on the number of unseen
universe states, using that a duplicate pop either pushes nothing or leaves
an unseen state on top of the LIFO frontier. -/
theorem buildLoop_term_aux (trans : List ((Int × Int) × Int)) (alpha : List (Char × Int))
    (anything : Int) (initS : Int) (finals : List Int)
    (vocab : List (List Char × List Int)) :
    ∀ (d : Nat) (stack seen : List Int) (acc : List (Int × List (Int × Int))),
      (∀ x ∈ stack, x ∈ stateUniverse trans initS) →
      ((stateUniverse trans initS).toFinset \ seen.toFinset).card ≤ d →
      ∃ n, buildLoop trans alpha anything initS finals vocab n stack seen acc ≠
        .outOfFuel := by
  intro d
  induction d with
  | zero =>
    have inner : ∀ (L : Nat) (stack seen : List Int) (acc : List (Int × List (Int × Int))),
        stack.length ≤ L →
        (∀ x ∈ stack, x ∈ stateUniverse trans initS) →
        ((stateUniverse trans initS).toFinset \ seen.toFinset).card ≤ 0 →
        ∃ n, buildLoop trans alpha anything initS finals vocab n stack seen acc ≠
          .outOfFuel := by
      intro L
      induction L with
      | zero =>
        intro stack seen acc hlen hU hcard
        have hnil : stack = [] := List.eq_nil_of_length_eq_zero (Nat.le_zero.mp hlen)
        subst hnil
        exact ⟨1, by simp [buildLoop]⟩
      | succ L ihL =>
        intro stack seen acc hlen hU hcard
        cases stack with
        | nil => exact ⟨1, by simp [buildLoop]⟩
        | cons s rest =>
          cases hscan : stateScanTokens trans alpha anything initS finals vocab s with
          | none => exact ⟨1, by simp [buildLoop, hscan]⟩
          | some ps =>
            have hsU : s ∈ stateUniverse trans initS := hU s (List.mem_cons_self _ _)
            have hseen : s ∈ seen := by
              by_contra hns
              have hmem : s ∈ (stateUniverse trans initS).toFinset \ seen.toFinset := by
                rw [Finset.mem_sdiff, List.mem_toFinset, List.mem_toFinset]
                exact ⟨hsU, hns⟩
              have := Finset.card_pos.mpr ⟨s, hmem⟩
              omega
            rcases processPairs_stack_head seen s ps rest acc with hstk | ⟨e, tl, hstk, hef⟩
            · have hU' : ∀ x ∈ (processPairs seen s ps rest acc).1,
                  x ∈ stateUniverse trans initS :=
                processPairs_stack_subU hscan (fun x hx => hU x (List.mem_cons_of_mem _ hx))
              have hcard' : ((stateUniverse trans initS).toFinset \
                  (s :: seen).toFinset).card ≤ 0 := by
                rw [card_sdiff_cons_eq hseen]
                exact hcard
              have hlen' : (processPairs seen s ps rest acc).1.length ≤ L := by
                rw [hstk]
                simp only [List.length_cons] at hlen
                omega
              obtain ⟨n, hn⟩ := ihL (processPairs seen s ps rest acc).1 (s :: seen)
                (processPairs seen s ps rest acc).2 hlen' hU' hcard'
              exact ⟨n + 1, by simpa [buildLoop, hscan] using hn⟩
            · have hU' : ∀ x ∈ (processPairs seen s ps rest acc).1,
                  x ∈ stateUniverse trans initS :=
                processPairs_stack_subU hscan (fun x hx => hU x (List.mem_cons_of_mem _ hx))
              have heU : e ∈ stateUniverse trans initS :=
                hU' e (hstk ▸ List.mem_cons_self _ _)
              have hene : e ∉ seen := not_mem_of_listMem_false hef
              have hmem : e ∈ (stateUniverse trans initS).toFinset \ seen.toFinset := by
                rw [Finset.mem_sdiff, List.mem_toFinset, List.mem_toFinset]
                exact ⟨heU, hene⟩
              have := Finset.card_pos.mpr ⟨e, hmem⟩
              omega
    intro stack seen acc hU hcard
    exact inner stack.length stack seen acc le_rfl hU hcard
  | succ d ihd =>
    have inner : ∀ (L : Nat) (stack seen : List Int) (acc : List (Int × List (Int × Int))),
        stack.length ≤ L →
        (∀ x ∈ stack, x ∈ stateUniverse trans initS) →
        ((stateUniverse trans initS).toFinset \ seen.toFinset).card ≤ d + 1 →
        ∃ n, buildLoop trans alpha anything initS finals vocab n stack seen acc ≠
          .outOfFuel := by
      intro L
      induction L with
      | zero =>
        intro stack seen acc hlen hU hcard
        have hnil : stack = [] := List.eq_nil_of_length_eq_zero (Nat.le_zero.mp hlen)
        subst hnil
        exact ⟨1, by simp [buildLoop]⟩
      | succ L ihL =>
        intro stack seen acc hlen hU hcard
        cases stack with
        | nil => exact ⟨1, by simp [buildLoop]⟩
        | cons s rest =>
          cases hscan : stateScanTokens trans alpha anything initS finals vocab s with
          | none => exact ⟨1, by simp [buildLoop, hscan]⟩
          | some ps =>
            have hsU : s ∈ stateUniverse trans initS := hU s (List.mem_cons_self _ _)
            have hU' : ∀ x ∈ (processPairs seen s ps rest acc).1,
                x ∈ stateUniverse trans initS :=
              processPairs_stack_subU hscan (fun x hx => hU x (List.mem_cons_of_mem _ hx))
            by_cases hseen : s ∈ seen
            · rcases processPairs_stack_head seen s ps rest acc with hstk | ⟨e, tl, hstk, hef⟩
              · have hcard' : ((stateUniverse trans initS).toFinset \
                    (s :: seen).toFinset).card ≤ d + 1 := by
                  rw [card_sdiff_cons_eq hseen]
                  exact hcard
                have hlen' : (processPairs seen s ps rest acc).1.length ≤ L := by
                  rw [hstk]
                  simp only [List.length_cons] at hlen
                  omega
                obtain ⟨n, hn⟩ := ihL (processPairs seen s ps rest acc).1 (s :: seen)
                  (processPairs seen s ps rest acc).2 hlen' hU' hcard'
                exact ⟨n + 1, by simpa [buildLoop, hscan] using hn⟩
              · -- a duplicate pop that pushed: the LIFO top is now unseen, so the
                -- next iteration is a fresh scan and the unseen count drops.
                have heU : e ∈ stateUniverse trans initS :=
                  hU' e (hstk ▸ List.mem_cons_self _ _)
                have hene : e ∉ seen := not_mem_of_listMem_false hef
                have hene1 : e ∉ s :: seen := by
                  intro hx
                  rcases List.mem_cons.mp hx with rfl | hx'
                  · exact hene hseen
                  · exact hene hx'
                cases hscan2 : stateScanTokens trans alpha anything initS finals vocab e with
                | none =>
                  refine ⟨2, ?_⟩
                  simp only [buildLoop, hscan]
                  rw [hstk]
                  simp [buildLoop, hscan2]
                | some ps2 =>
                  have hU1 : ∀ x ∈ tl, x ∈ stateUniverse trans initS := by
                    intro x hx
                    exact hU' x (hstk ▸ List.mem_cons_of_mem _ hx)
                  have hU2 : ∀ x ∈ (processPairs (s :: seen) e ps2 tl
                      (processPairs seen s ps rest acc).2).1,
                      x ∈ stateUniverse trans initS :=
                    processPairs_stack_subU hscan2 hU1
                  have hcard2 : ((stateUniverse trans initS).toFinset \
                      (e :: s :: seen).toFinset).card ≤ d := by
                    have h1 := @card_sdiff_cons_eq (stateUniverse trans initS) seen s hseen
                    have h2 := @card_sdiff_cons_lt (stateUniverse trans initS)
                      (s :: seen) e heU hene1
                    rw [h1] at h2
                    omega
                  obtain ⟨n, hn⟩ := ihd (processPairs (s :: seen) e ps2 tl
                      (processPairs seen s ps rest acc).2).1 (e :: s :: seen)
                    (processPairs (s :: seen) e ps2 tl
                      (processPairs seen s ps rest acc).2).2 hU2 hcard2
                  refine ⟨n + 2, ?_⟩
                  simp only [buildLoop, hscan]
                  rw [hstk]
                  simpa [buildLoop, hscan2] using hn
            · have hcard' : ((stateUniverse trans initS).toFinset \
                  (s :: seen).toFinset).card ≤ d := by
                have := @card_sdiff_cons_lt (stateUniverse trans initS) seen s hsU hseen
                omega
              obtain ⟨n, hn⟩ := ihd (processPairs seen s ps rest acc).1 (s :: seen)
                (processPairs seen s ps rest acc).2 hU' hcard'
              exact ⟨n + 1, by simpa [buildLoop, hscan] using hn⟩
    intro stack seen acc hU hcard
    exact inner stack.length stack seen acc le_rfl hU hcard

/-! ### The bit-exact chunk arithmetic agrees with the exact ceiling below 2^24 -/

theorem f32ulpExp_of_lt {n : Nat} (h : n < 2 ^ 24) : ∀ fuel, f32ulpExp fuel n = 0 := by
  intro fuel
  cases fuel with
  | zero => rfl
  | succ fuel =>
    simp only [f32ulpExp]
    rw [if_neg (Nat.not_le.mpr h)]

theorem f32roundNat_of_lt {n : Nat} (h : n < 2 ^ 24) : f32roundNat n = n := by
  unfold f32roundNat
  rw [f32ulpExp_of_lt h 64]
  simp [Nat.mod_one]

theorem f32roundNat_of_le {n : Nat} (h : n ≤ 2 ^ 24) : f32roundNat n = n := by
  rcases Nat.lt_or_eq_of_le h with h' | h'
  · exact f32roundNat_of_lt h'
  · subst h'
    decide

theorem tokensPerThreadF32_of_le {n : Nat} (h : n ≤ 2 ^ 24) :
    tokensPerThreadF32 n = tokensPerThread n := by
  unfold tokensPerThreadF32 tokensPerThread
  rw [f32roundNat_of_le h]

theorem parChunksF32_of_le {n : Nat} (h : n ≤ 2 ^ 24) : parChunksF32 n = parChunks n := by
  unfold parChunksF32 parChunks
  simp only [tokensPerThreadF32_of_le h]

theorem tokenChunksF32_of_le {n : Nat} (h : n ≤ 2 ^ 24) :
    tokenChunksF32 n = tokenChunks n := by
  unfold tokenChunksF32 tokenChunks
  rw [parChunksF32_of_le h]

theorem stateScanTokensF32_of_le {trans : List ((Int × Int) × Int)} {alpha : List (Char × Int)}
    {anything : Int} {initS : Int} {finals : List Int}
    {vocab : List (List Char × List Int)} {startS : Int}
    (h : vocab.length ≤ 2 ^ 24) :
    stateScanTokensF32 trans alpha anything initS finals vocab startS =
      stateScanTokens trans alpha anything initS finals vocab startS := by
  unfold stateScanTokensF32 stateScanTokens
  rw [tokenChunksF32_of_le h]

theorem stateScanTokensF32Par_of_le {trans : List ((Int × Int) × Int)}
    {alpha : List (Char × Int)} {anything : Int} {initS : Int} {finals : List Int}
    {vocab : List (List Char × List Int)} {startS : Int}
    (h : vocab.length ≤ 2 ^ 24) :
    stateScanTokensF32Par trans alpha anything initS finals vocab startS =
      stateScanTokensPar trans alpha anything initS finals vocab startS := by
  unfold stateScanTokensF32Par stateScanTokensPar
  rw [parChunksF32_of_le h]

theorem buildLoopF32_of_le {trans : List ((Int × Int) × Int)} {alpha : List (Char × Int)}
    {anything : Int} {initS : Int} {finals : List Int}
    {vocab : List (List Char × List Int)} (h : vocab.length ≤ 2 ^ 24) :
    ∀ (fuel : Nat) (stack seen : List Int) (acc : List (Int × List (Int × Int))),
      buildLoopF32 trans alpha anything initS finals vocab fuel stack seen acc =
        buildLoop trans alpha anything initS finals vocab fuel stack seen acc := by
  intro fuel
  induction fuel with
  | zero => intro stack seen acc; rfl
  | succ fuel ih =>
    intro stack seen acc
    cases stack with
    | nil => rfl
    | cons s rest =>
      simp only [buildLoopF32, buildLoop, stateScanTokensF32_of_le h]
      cases hscan : stateScanTokens trans alpha anything initS finals vocab s with
      | none => rfl
      | some ps => exact ih _ _ _

theorem createFsmIndexEndToEndRustF32_of_le {trans : List ((Int × Int) × Int)}
    {alpha : List (Char × Int)} {anything : Int} {initS : Int} {finals : List Int}
    {vocab : List (List Char × List Int)} (h : vocab.length ≤ 2 ^ 24) (fuel : Nat) :
    createFsmIndexEndToEndRustF32 trans alpha anything initS finals vocab fuel =
      createFsmIndexEndToEndRust trans alpha anything initS finals vocab fuel :=
  buildLoopF32_of_le h fuel [initS] [] []

/-! ### Membership and success of chunked scans, without a coverage assumption -/

theorem optionMapM_isSome {α β : Type} (f : α → Option β) :
    ∀ l : List α, (∀ a ∈ l, (f a).isSome = true) → (optionMapM f l).isSome = true := by
  intro l
  induction l with
  | nil => intro _; rfl
  | cons a rest ih =>
    intro h
    simp only [optionMapM]
    cases hfa : f a with
    | none =>
      have := h a (List.mem_cons_self _ _)
      rw [hfa] at this
      cases this
    | some b =>
      rw [isSome_map]
      exact ih (fun x hx => h x (List.mem_cons_of_mem _ hx))

theorem optionMapM_flatten_mem {α β : Type} (f : α → Option (List β)) :
    ∀ (l : List α) (r : List β),
      (optionMapM f l).map List.flatten = some r →
      ∀ x ∈ r, ∃ a ∈ l, ∃ b, f a = some b ∧ x ∈ b := by
  intro l
  induction l with
  | nil =>
    intro r h x hx
    simp only [optionMapM, Option.map_some'] at h
    injection h with h'
    subst h'
    simp at hx
  | cons a rest ih =>
    intro r h x hx
    simp only [optionMapM] at h
    cases hfa : f a with
    | none => rw [hfa] at h; simp at h
    | some b =>
      rw [hfa] at h
      cases hrest : optionMapM f rest with
      | none => rw [hrest] at h; simp at h
      | some bs =>
        rw [hrest] at h
        simp only [Option.map_some'] at h
        injection h with h'
        subst h'
        rw [List.flatten_cons] at hx
        rcases List.mem_append.mp hx with hxb | hxbs
        · exact ⟨a, List.mem_cons_self _ _, b, hfa, hxb⟩
        · obtain ⟨a', ha', b', hfa', hxb'⟩ := ih bs.flatten (by rw [hrest]; rfl) x hxbs
          exact ⟨a', List.mem_cons_of_mem _ ha', b', hfa', hxb'⟩

theorem mem_take_drop {α : Type} :
    ∀ (l : List α) (s k : Nat) (x : α), x ∈ (l.drop s).take k → x ∈ l.take (s + k) := by
  intro l s k x h
  rw [List.take_drop] at h
  have := List.drop_subset s (l.take (s + k))
  exact this h

/-! ### A 2^24 + 1 entry vocabulary on which the chunked scan drops a token -/

/-- Self-looping automaton of the large instance: both symbols return to
state 0, so every token over `{a, b}` is fully walkable from state 0. -/
def bigTrans : List ((Int × Int) × Int) := [((0, 0), 0), ((0, 1), 0)]

/-- Alphabet of the large instance. -/
def bigAlpha : List (Char × Int) := [('a', 0), ('b', 1)]

/-- The `i`-th of `2^25` distinct 25-character tokens over `{a, b}`: the
binary representation of `i`, most significant bit first (`'a'` = 0,
`'b'` = 1).  The fixed length makes byte-wise order coincide with numeric
order, so listing these for ascending `i` is a valid `BTreeMap` iteration
with distinct keys. -/
def tok25 (i : Nat) : List Char :=
  (List.range 25).map (fun k => if i / 2 ^ (24 - k) % 2 = 1 then 'b' else 'a')

/-- A sorted vocabulary of `2^24 + 1` distinct token texts; entry `i` carries
the single id `i`. -/
def bigVocab : List (List Char × List Int) :=
  (List.range 16777217).map (fun i => (tok25 i, [(i : Int)]))

theorem tok25_length (i : Nat) : (tok25 i).length = 25 := by
  simp [tok25]

theorem tok25_ne_nil (i : Nat) : tok25 i ≠ [] := by
  intro h
  have := congrArg List.length h
  rw [tok25_length] at this
  cases this

theorem bigVocab_length : bigVocab.length = 16777217 := by
  simp [bigVocab]

theorem bigVocab_no_empty : ∀ (T : List Char) (ids : List Int),
    (T, ids) ∈ bigVocab → T = [] → ids = [] := by
  intro T ids hmem hT
  simp only [bigVocab, List.mem_map] at hmem
  obtain ⟨i, hi, heq⟩ := hmem
  injection heq with h1 h2
  rw [← h1] at hT
  exact absurd hT (tok25_ne_nil i)

theorem bigVocab_take_mem {m : Nat} (hm : m ≤ 16777216) {T : List Char} {ids : List Int}
    (h : (T, ids) ∈ bigVocab.take m) :
    ∃ j : Nat, j < 16777216 ∧ T = tok25 j ∧ ids = [(j : Int)] := by
  rw [bigVocab, ← List.map_take, List.take_range] at h
  obtain ⟨j, hj, heq⟩ := List.mem_map.mp h
  have hj' : j < m := lt_of_lt_of_le (List.mem_range.mp hj) (min_le_left _ _)
  injection heq with h1 h2
  exact ⟨j, by omega, h1.symm, h2.symm⟩

theorem big_tpt : tokensPerThreadF32 16777217 = 1048576 := by decide

/-- Every chunk of the bit-exact partition of `2^24 + 1` entries ends at or
before index `2^24`: the last entry is in no chunk. -/
theorem bigChunks_bound : ∀ c ∈ parChunksF32 16777217, c.1 + (c.2 - c.1) ≤ 16777216 := by
  intro c hc
  simp only [parChunksF32, List.mem_filterMap, List.mem_range] at hc
  obtain ⟨i, hi, hg⟩ := hc
  rw [big_tpt] at hg
  split_ifs at hg with h1 h2
  · -- the cap `stop = n` is never taken here
    have : (i + 1) * 1048576 ≤ 16777216 := by omega
    omega
  · injection hg with hg'
    subst hg'
    simp only
    omega

/-! ### Shared membership characterisation with the length stated as equality -/

/-- Membership in a successful scan, with the retention condition written as
"the walk has exactly the token's byte length" (equivalent to the code's
`!(state_seq.len() < token.len())` because the walk is never longer than the
character count, which is never larger than the byte count). -/
theorem stateScanTokens_mem_eq {trans : List ((Int × Int) × Int)} {alpha : List (Char × Int)}
    {anything : Int} {initS : Int} {finals : List Int}
    {vocab : List (List Char × List Int)} {startS : Int} {res : List (Int × Int)}
    (h : stateScanTokens trans alpha anything initS finals vocab startS = some res)
    (id e : Int) :
    (id, e) ∈ res ↔ ∃ T ids, (T, ids) ∈ vocab ∧ id ∈ ids ∧
      (walkFsm trans alpha anything initS finals T startS false).length = byteLen T ∧
      (walkFsm trans alpha anything initS finals T startS false).getLast? = some e := by
  rw [stateScanTokens_mem h id e]
  constructor
  · rintro ⟨T, ids, hmem, hid, hnl, hl⟩
    refine ⟨T, ids, hmem, hid, ?_, hl⟩
    have h1 := walkFsm_length_le trans alpha anything initS finals T startS false
    have h2 := length_le_byteLen T
    omega
  · rintro ⟨T, ids, hmem, hid, heq, hl⟩
    exact ⟨T, ids, hmem, hid, by omega, hl⟩

/-! ### Concrete instances used by the claims -/

/-- The concrete scenario's transitions `{(0,0):1, (1,0):1, (1,1):2}`. -/
def exTrans : List ((Int × Int) × Int) := [((0, 0), 1), ((1, 0), 1), ((1, 1), 2)]

/-- The concrete scenario's alphabet `{a:0, b:1}` (anything value 2). -/
def exAlpha : List (Char × Int) := [('a', 0), ('b', 1)]

/-- The concrete scenario's vocabulary, in `BTreeMap` (byte-wise) key order:
`"a" < "aab" < "ab" < "b"`. -/
def exVocab : List (List Char × List Int) :=
  [(['a'], [10]), (['a', 'a', 'b'], [40]), (['a', 'b'], [20]), (['b'], [30])]

/-- The index the build actually returns on the concrete scenario: state 2 is
scanned but yields no pair, so it never becomes a key. -/
def exM : List (Int × List (Int × Int)) :=
  [(0, [(10, 1), (20, 2), (40, 2)]), (1, [(10, 1), (20, 2), (30, 2), (40, 2)])]

/-- Transitions of the two-byte-character instance: both `'a'` (symbol 0) and
`'é'` (symbol 1) have a transition from state 0. -/
def ceTrans : List ((Int × Int) × Int) := [((0, 0), 1), ((0, 1), 2)]

/-- Alphabet of the two-byte-character instance. -/
def ceAlpha : List (Char × Int) := [('a', 0), ('é', 1)]

/-- Vocabulary of the two-byte-character instance: `"é"` is one character but
two UTF-8 bytes. -/
def ceVocab : List (List Char × List Int) := [(['a'], [10]), (['é'], [20])]

/-! ### C1 -/

/-- C1 counterexample: the inclusion law as stated (walk length equal to the
token's character length) fails for the one-character two-byte token `"é"`:
its walk from state 0 has length 1, equal to its character count, and ends at
state 2, yet `(20, 2)` is not in the scan output, because the code compares
against the byte length 2. -/
theorem scan_inclusion_law_cex :
    ¬(∀ res, stateScanTokensF32 ceTrans ceAlpha 9 0 [] ceVocab 0 = some res →
      (((20 : Int), (2 : Int)) ∈ res ↔
        (walkFsm ceTrans ceAlpha 9 0 [] ['é'] 0 false).length =
          (['é'] : List Char).length ∧
        (walkFsm ceTrans ceAlpha 9 0 [] ['é'] 0 false).getLast? = some 2)) := by
  intro h
  have h2 := h [((10 : Int), (1 : Int))] rfl
  have hmem := h2.mpr (by decide)
  exact absurd hmem (by decide)

/-- C1 (amended): for every automaton, alphabet and start state, and every
vocabulary of at most `2^24` entries (below which the f32 chunk arithmetic is
exact and every entry is scanned), whenever the scan completes, it contains
`(id, e)` exactly when some vocabulary entry `(T, ids)` has `id ∈ ids`, the
non-full-consumption walk of `T` from the start state has length equal to
`T`'s UTF-8 byte length (not its character length), and that walk ends at
`e`.  Beyond `2^24` entries the parallel chunks can drop trailing entries
(see the C7 counterexample), so the size bound is necessary. -/
theorem scan_inclusion_law {trans : List ((Int × Int) × Int)} {alpha : List (Char × Int)}
    {anything : Int} {initS : Int} {finals : List Int}
    {vocab : List (List Char × List Int)} {startS : Int} {res : List (Int × Int)}
    (hsize : vocab.length ≤ 2 ^ 24)
    (h : stateScanTokensF32 trans alpha anything initS finals vocab startS = some res)
    (id e : Int) :
    (id, e) ∈ res ↔ ∃ T ids, (T, ids) ∈ vocab ∧ id ∈ ids ∧
      (walkFsm trans alpha anything initS finals T startS false).length = byteLen T ∧
      (walkFsm trans alpha anything initS finals T startS false).getLast? = some e := by
  rw [stateScanTokensF32_of_le hsize] at h
  exact stateScanTokens_mem_eq h id e

/-- C1 witness: the amended law applied at the concrete scenario, start state
0, pair `(10, 1)`. -/
theorem scan_inclusion_law_witness :
    ((10 : Int), (1 : Int)) ∈ ([(10, 1), (40, 2), (20, 2)] : List (Int × Int)) ↔
      ∃ T ids, (T, ids) ∈ exVocab ∧ (10 : Int) ∈ ids ∧
        (walkFsm exTrans exAlpha 2 0 [2] T 0 false).length = byteLen T ∧
        (walkFsm exTrans exAlpha 2 0 [2] T 0 false).getLast? = some 1 :=
  scan_inclusion_law (by decide) (by rfl) 10 1

/-! ### C2 -/

/-- C2 counterexample: on an empty vocabulary the build returns the empty
mapping, so the initial state 0 is not a key, contradicting "the initial
state is always a key, possibly with an empty value set". -/
theorem build_index_keys_cex :
    createFsmIndexEndToEndRust [] [] 0 0 [] [] 5 = .ok [] ∧
      assocGet (0 : Int) ([] : List (Int × List (Int × Int))) = none :=
  ⟨rfl, rfl⟩

/-- C2 (amended): for every automaton, alphabet and vocabulary, when the build
completes, the key set of the returned mapping equals exactly the set of
states reachable from the initial state by concatenating accepted vocabulary
tokens **whose scan retains at least one pair**; a reachable state with an
empty scan result (the initial state included) gets no key. -/
theorem build_index_keys_complete {trans : List ((Int × Int) × Int)}
    {alpha : List (Char × Int)} {anything : Int} {initS : Int} {finals : List Int}
    {vocab : List (List Char × List Int)} {fuel : Nat} {m : List (Int × List (Int × Int))}
    (h : createFsmIndexEndToEndRust trans alpha anything initS finals vocab fuel = .ok m)
    (x : Int) :
    (∃ inner, assocGet x m = some inner) ↔
      (Reachable trans alpha anything initS finals vocab x ∧
       ∃ ps, stateScanTokens trans alpha anything initS finals vocab x = some ps ∧
         ps ≠ []) := by
  unfold createFsmIndexEndToEndRust at h
  exact (buildLoop_ok_extract trans alpha anything initS finals vocab fuel [initS] [] [] m h
    (buildInv_start trans alpha anything initS finals vocab)).1 x

/-- C2 witness: the amended completeness applied at the concrete scenario and
state 1. -/
theorem build_index_keys_complete_witness :
    (∃ inner, assocGet (1 : Int) exM = some inner) ↔
      (Reachable exTrans exAlpha 2 0 [2] exVocab 1 ∧
       ∃ ps, stateScanTokens exTrans exAlpha 2 0 [2] exVocab 1 = some ps ∧ ps ≠ []) :=
  @build_index_keys_complete exTrans exAlpha 2 0 [2] exVocab 100 exM (by rfl) 1

/-! ### C3 -/

/-- C3 counterexample: with `require_full_consumption = true`, a token whose
every character has a defined transition chain is still rejected when no
final state is visited, so the claimed "if and only if" fails: here the chain
for `"a"` from state 0 exists but the walk returns the empty (rejected)
sequence, whose length is not the character count 1. -/
theorem walk_correctness_cex :
    ¬(((walkFsm [((0, 0), 1)] [('a', 0)] 5 0 [] ['a'] 0 true).length =
        (['a'] : List Char).length) ↔
      (chainStates [((0, 0), 1)] [('a', 0)] 5 ['a'] 0).isSome = true) := by
  decide

/-- C3 (amended): (a) when `require_full_consumption` is false — the only mode
the scanner uses — the walk returns a sequence of the token's character count
exactly when every character has a defined transition chain; (b) a
full-length return always implies the chain exists, for either mode; (c) with
`require_full_consumption = true` the walk returns either rejection or the
full sequence (never a truncation); (d) when the chain is broken and
`require_full_consumption` is false, the result is rejection or a strictly
shorter truncated sequence containing a visited final state. -/
theorem walk_correctness (trans : List ((Int × Int) × Int)) (alpha : List (Char × Int))
    (anything : Int) (initS : Int) (finals : List Int) (token : List Char)
    (startS : Int) (full : Bool) :
    ((full = false) →
      ((walkFsm trans alpha anything initS finals token startS false).length =
          token.length ↔
        (chainStates trans alpha anything token startS).isSome = true)) ∧
    ((walkFsm trans alpha anything initS finals token startS full).length = token.length →
      (chainStates trans alpha anything token startS).isSome = true) ∧
    (full = true →
      walkFsm trans alpha anything initS finals token startS true = [] ∨
      (walkFsm trans alpha anything initS finals token startS true).length =
        token.length) ∧
    (full = false →
      (chainStates trans alpha anything token startS).isSome = false →
      walkFsm trans alpha anything initS finals token startS false = [] ∨
      ((walkFsm trans alpha anything initS finals token startS false).length <
          token.length ∧
       ∃ x, x ∈ walkFsm trans alpha anything initS finals token startS false ∧
         listMem x finals = true)) := by
  refine ⟨fun _ => walkFsm_false_length_iff trans alpha anything initS finals token startS,
    ?_, ?_, ?_⟩
  · intro hlen
    cases hch : chainStates trans alpha anything token startS with
    | some tr => rfl
    | none =>
      cases full with
      | false =>
        rw [walkFsm_false_length_iff] at hlen
        rw [hch] at hlen
        cases hlen
      | true =>
        rw [walkFsm_chain_none_true initS finals hch] at hlen
        simp only [List.length_nil] at hlen
        cases token with
        | nil => simp [chainStates] at hch
        | cons c cs => simp at hlen
  · intro _
    cases hch : chainStates trans alpha anything token startS with
    | some tr =>
      rw [walkFsm_chain_some initS finals true hch]
      split
      · exact Or.inl rfl
      · exact Or.inr (chainStates_length trans alpha anything token startS tr hch)
    | none => exact Or.inl (walkFsm_chain_none_true initS finals hch)
  · intro _ hnone
    cases hch : chainStates trans alpha anything token startS with
    | some tr => rw [hch] at hnone; cases hnone
    | none => exact walkFsm_chain_none_false initS finals hch

/-- C3 witness: with the chain defined and `require_full_consumption = false`,
the walk of `"a"` from state 0 has the full character length. -/
theorem walk_correctness_witness :
    (walkFsm [((0, 0), 1)] [('a', 0)] 5 0 [] ['a'] 0 false).length =
      (['a'] : List Char).length :=
  ((walk_correctness [((0, 0), 1)] [('a', 0)] 5 0 [] ['a'] 0 false).1 rfl).mpr (by decide)

/-! ### C4 -/

/-- C4 counterexample: the token `"é"` can be walked character by character
from the key state 0 (the walk is `[2]`, one state per character, using only
transitions present), yet its id 20 is omitted from state 0's entry, because
the retention filter compares against the byte length 2. -/
theorem build_index_exact_cex :
    createFsmIndexEndToEndRustF32 ceTrans ceAlpha 9 0 [] ceVocab 10 = .ok [(0, [(10, 1)])] ∧
    walkFsm ceTrans ceAlpha 9 0 [] ['é'] 0 false = [2] ∧
    ((20 : Int), (2 : Int)) ∉ ([((10 : Int), (1 : Int))] : List (Int × Int)) :=
  ⟨rfl, rfl, by decide⟩

/-- C4 (amended): for every vocabulary of at most `2^24` entries (below
which the f32 chunk arithmetic is exact and every entry is scanned), when the
build completes, every pair `(id, e)` stored under key `s` comes from a
vocabulary token whose full text walks from `s` to `e` with walk length equal
to its UTF-8 byte length, and conversely no token that walks with full byte
length from a key state `s` is omitted from `s`'s entry (its id is present
with some end state).  Beyond `2^24` entries the parallel chunks can drop
trailing entries (see the C7 counterexample), so the size bound is
necessary for the converse. -/
theorem build_index_exact {trans : List ((Int × Int) × Int)} {alpha : List (Char × Int)}
    {anything : Int} {initS : Int} {finals : List Int}
    {vocab : List (List Char × List Int)} {fuel : Nat} {m : List (Int × List (Int × Int))}
    (hsize : vocab.length ≤ 2 ^ 24)
    (h : createFsmIndexEndToEndRustF32 trans alpha anything initS finals vocab fuel = .ok m)
    {s : Int} {inner : List (Int × Int)} (hs : assocGet s m = some inner) :
    (∀ id e : Int, (id, e) ∈ inner →
      ∃ T ids, (T, ids) ∈ vocab ∧ id ∈ ids ∧
        (walkFsm trans alpha anything initS finals T s false).length = byteLen T ∧
        (walkFsm trans alpha anything initS finals T s false).getLast? = some e) ∧
    (∀ T ids id, (T, ids) ∈ vocab → id ∈ ids →
      (walkFsm trans alpha anything initS finals T s false).length = byteLen T →
      ∃ e', (id, e') ∈ inner) := by
  rw [createFsmIndexEndToEndRustF32_of_le hsize fuel] at h
  unfold createFsmIndexEndToEndRust at h
  have hext := buildLoop_ok_extract trans alpha anything initS finals vocab fuel
    [initS] [] [] m h (buildInv_start trans alpha anything initS finals vocab)
  obtain ⟨hsound, hcomp⟩ := hext.2 s inner hs
  constructor
  · intro id e hmem
    obtain ⟨ps, hps, hin⟩ := hsound id e hmem
    exact (stateScanTokens_mem_eq hps id e).mp hin
  · intro T ids id hTmem hid hlen
    obtain ⟨-, ps, hps, -⟩ := (hext.1 s).mp ⟨inner, hs⟩
    by_cases hT : T = []
    · subst hT
      have hsome : (stateScanTokens trans alpha anything initS finals vocab s).isSome =
          true := by
        rw [hps]; rfl
      have hids :=
        (stateScanTokens_isSome_iff trans alpha anything initS finals vocab s).mp
          hsome [] ids hTmem rfl
      rw [hids] at hid
      simp at hid
    · have hbpos := byteLen_pos hT
      have hne : walkFsm trans alpha anything initS finals T s false ≠ [] := by
        intro h0
        rw [h0] at hlen
        simp only [List.length_nil] at hlen
        omega
      obtain ⟨e, he⟩ :
          ∃ e, (walkFsm trans alpha anything initS finals T s false).getLast? = some e := by
        cases hw : (walkFsm trans alpha anything initS finals T s false).getLast? with
        | none => exact absurd (List.getLast?_eq_none_iff.mp hw) hne
        | some e => exact ⟨e, rfl⟩
      have hin : (id, e) ∈ ps :=
        (stateScanTokens_mem_eq hps id e).mpr ⟨T, ids, hTmem, hid, hlen, he⟩
      exact hcomp ps hps id e hin

/-- C4 witness: the amended exactness applied at the concrete scenario, key
state 0 and its stored entry. -/
theorem build_index_exact_witness :
    (∀ id e : Int, (id, e) ∈ ([(10, 1), (20, 2), (40, 2)] : List (Int × Int)) →
      ∃ T ids, (T, ids) ∈ exVocab ∧ id ∈ ids ∧
        (walkFsm exTrans exAlpha 2 0 [2] T 0 false).length = byteLen T ∧
        (walkFsm exTrans exAlpha 2 0 [2] T 0 false).getLast? = some e) ∧
    (∀ T ids id, (T, ids) ∈ exVocab → id ∈ ids →
      (walkFsm exTrans exAlpha 2 0 [2] T 0 false).length = byteLen T →
      ∃ e', (id, e') ∈ ([(10, 1), (20, 2), (40, 2)] : List (Int × Int))) :=
  @build_index_exact exTrans exAlpha 2 0 [2] exVocab 100 exM (by decide) (by rfl) 0
    [(10, 1), (20, 2), (40, 2)] (by rfl)

/-! ### C5 -/

/-- C5 counterexample: on the concrete scenario the build completes with a
mapping that has no entry for state 2 at all, while the claim demands the key
2 mapped to the empty set. -/
theorem concrete_scenario_cex :
    createFsmIndexEndToEndRust exTrans exAlpha 2 0 [2] exVocab 100 = .ok exM ∧
      assocGet (2 : Int) exM = none :=
  ⟨rfl, rfl⟩

/-- C5 (amended): the three scans are exactly as claimed (as sets), and the
build returns `{0: {(10,1),(20,2),(40,2)}, 1: {(10,1),(20,2),(30,2),(40,2)}}`
with no entry for state 2. -/
theorem concrete_scenario :
    (stateScanTokens exTrans exAlpha 2 0 [2] exVocab 0 =
        some [(10, 1), (40, 2), (20, 2)] ∧
      ([((10 : Int), (1 : Int)), (40, 2), (20, 2)]).Perm
        [(10, 1), (20, 2), (40, 2)]) ∧
    (stateScanTokens exTrans exAlpha 2 0 [2] exVocab 1 =
        some [(10, 1), (40, 2), (20, 2), (30, 2)] ∧
      ([((10 : Int), (1 : Int)), (40, 2), (20, 2), (30, 2)]).Perm
        [(10, 1), (20, 2), (30, 2), (40, 2)]) ∧
    stateScanTokens exTrans exAlpha 2 0 [2] exVocab 2 = some [] ∧
    createFsmIndexEndToEndRust exTrans exAlpha 2 0 [2] exVocab 100 = .ok exM :=
  ⟨⟨rfl, by decide⟩, ⟨rfl, by decide⟩, rfl, rfl⟩

/-! ### C6 -/

/-- C6 counterexample: on an empty vocabulary the build returns the empty
mapping, not the claimed `{initial_state: {}}`. -/
theorem empty_vocab_cex :
    createFsmIndexEndToEndRust [] [] 0 0 [] [] 5 = .ok [] ∧
      BuildResult.ok ([] : List (Int × List (Int × Int))) ≠
        .ok [((0 : Int), ([] : List (Int × Int)))] :=
  ⟨rfl, by decide⟩

/-- C6 (amended): for every automaton and alphabet, the build on an empty
vocabulary returns the empty mapping (the lone scan of the initial state
yields no pair, so no key is ever created). -/
theorem empty_vocab_build (trans : List ((Int × Int) × Int)) (alpha : List (Char × Int))
    (anything : Int) (initS : Int) (finals : List Int) (fuel : Nat) :
    createFsmIndexEndToEndRust trans alpha anything initS finals [] (fuel + 2) = .ok [] :=
  rfl

/-! ### C7 -/

/-- C7 counterexample: at `2^24 + 1` vocabulary entries the claimed
partition-independence fails in the bit-exact model of the code.  The cast of
`16777217` to `f32` rounds ties-to-even down to `16777216`, so
`tokens_per_thread = 1048576` and the 16 chunks cover only the first `2^24`
entries: the single contiguous range retains the last token (its pair
`(16777216, 0)` is in the result set), while the parallel partition — the
branch the code actually takes at this size — never scans that entry, and its
result set lacks the pair. -/
theorem scan_parallel_deterministic_cex :
    (∃ res1, stateScanTokensSingle bigTrans bigAlpha 0 0 [] bigVocab 0 = some res1 ∧
      ((16777216 : Int), (0 : Int)) ∈ res1) ∧
    (∃ res2, stateScanTokensF32 bigTrans bigAlpha 0 0 [] bigVocab 0 = some res2 ∧
      ((16777216 : Int), (0 : Int)) ∉ res2) := by
  constructor
  · have hsingle := stateScanTokensSingle_eq bigTrans bigAlpha 0 0 [] bigVocab 0
    have hsome1 : (scanChunk bigTrans bigAlpha 0 0 [] 0 bigVocab).isSome = true :=
      (scanChunk_isSome_iff bigTrans bigAlpha 0 0 [] 0 bigVocab).mpr bigVocab_no_empty
    obtain ⟨res1, hres1⟩ := Option.isSome_iff_exists.mp hsome1
    refine ⟨res1, by rw [hsingle]; exact hres1, ?_⟩
    rw [scanChunk_mem bigTrans bigAlpha 0 0 [] 0 bigVocab res1 hres1 16777216 0]
    refine ⟨tok25 16777216, [(16777216 : Int)], ?_, ?_, ?_, ?_⟩
    · exact List.mem_map.mpr ⟨16777216, List.mem_range.mpr (by norm_num), rfl⟩
    · exact List.mem_singleton.mpr rfl
    · decide
    · decide
  · have hchunks : tokenChunksF32 bigVocab.length = parChunksF32 16777217 := by
      rw [bigVocab_length]
      unfold tokenChunksF32
      rw [if_pos (by norm_num)]
    have hsome2 : (stateScanTokensF32 bigTrans bigAlpha 0 0 [] bigVocab 0).isSome = true := by
      unfold stateScanTokensF32
      rw [hchunks, isSome_map]
      apply optionMapM_isSome
      intro c hc
      apply (scanChunk_isSome_iff bigTrans bigAlpha 0 0 [] 0 _).mpr
      intro T ids hmem hT
      exact bigVocab_no_empty T ids
        (List.drop_subset _ _ (List.take_subset _ _ hmem)) hT
    obtain ⟨res2, hres2⟩ := Option.isSome_iff_exists.mp hsome2
    refine ⟨res2, hres2, ?_⟩
    intro hmem
    unfold stateScanTokensF32 at hres2
    rw [hchunks] at hres2
    obtain ⟨c, hc, b, hb, hxb⟩ :=
      optionMapM_flatten_mem _ (parChunksF32 16777217) res2 hres2 _ hmem
    obtain ⟨T, ids, hTmem, hid, -, -⟩ :=
      (scanChunk_mem bigTrans bigAlpha 0 0 [] 0
        ((bigVocab.drop c.1).take (c.2 - c.1)) b hb 16777216 0).mp hxb
    have h3 : (T, ids) ∈ bigVocab.take (c.1 + (c.2 - c.1)) :=
      mem_take_drop bigVocab c.1 (c.2 - c.1) _ hTmem
    have hbd := bigChunks_bound c hc
    have h4 : (T, ids) ∈ bigVocab.take 16777216 := by
      have heq : bigVocab.take (c.1 + (c.2 - c.1)) =
          (bigVocab.take 16777216).take (c.1 + (c.2 - c.1)) := by
        rw [List.take_take, Nat.min_eq_left hbd]
      rw [heq] at h3
      exact List.take_subset _ _ h3
    obtain ⟨j, hj, hTj, hidsj⟩ := bigVocab_take_mem (le_refl 16777216) h4
    rw [hidsj, List.mem_singleton] at hid
    have hj' : (16777216 : Nat) = j := by exact_mod_cast hid
    omega

/-- C7 (amended): for every vocabulary of at most `2^24` entries — below
which the f32 ceiling in `tokens_per_thread` is exact — the 16-chunk parallel
partition of `_state_scan_tokens` and its single contiguous range produce
identical results, and `_state_scan_tokens` itself (whichever branch its
1000-entry threshold takes) agrees with both: within this regime the outcome
depends neither on worker count, nor partition boundaries, nor the
threshold.  Beyond `2^24` entries the f32 rounding can leave trailing
entries uncovered and the parallel result differs from the single range. -/
theorem scan_parallel_deterministic (trans : List ((Int × Int) × Int))
    (alpha : List (Char × Int)) (anything : Int) (initS : Int) (finals : List Int)
    (vocab : List (List Char × List Int)) (startS : Int)
    (hsize : vocab.length ≤ 2 ^ 24) :
    stateScanTokensF32Par trans alpha anything initS finals vocab startS =
      stateScanTokensSingle trans alpha anything initS finals vocab startS ∧
    stateScanTokensF32 trans alpha anything initS finals vocab startS =
      stateScanTokensSingle trans alpha anything initS finals vocab startS := by
  constructor
  · rw [stateScanTokensF32Par_of_le hsize, stateScanTokensPar_eq,
      stateScanTokensSingle_eq]
  · rw [stateScanTokensF32_of_le hsize, stateScanTokens_eq_scanChunk,
      stateScanTokensSingle_eq]

/-- C7 witness: the amended invariance applied at the concrete scenario's
four-entry vocabulary. -/
theorem scan_parallel_deterministic_witness :
    stateScanTokensF32Par exTrans exAlpha 2 0 [2] exVocab 0 =
      stateScanTokensSingle exTrans exAlpha 2 0 [2] exVocab 0 ∧
    stateScanTokensF32 exTrans exAlpha 2 0 [2] exVocab 0 =
      stateScanTokensSingle exTrans exAlpha 2 0 [2] exVocab 0 :=
  scan_parallel_deterministic exTrans exAlpha 2 0 [2] exVocab 0 (by decide)

/-! ### C8 -/

/-- C8: for every automaton, alphabet, vocabulary and start state, the scan
result is unchanged when the final-state set is replaced by any other set:
the walker's visited-final bookkeeping never changes which tokens are
retained or which end states are recorded. -/
theorem scan_finals_independent (trans : List ((Int × Int) × Int))
    (alpha : List (Char × Int)) (anything : Int) (initS : Int)
    (vocab : List (List Char × List Int)) (startS : Int) (f1 f2 : List Int) :
    stateScanTokens trans alpha anything initS f1 vocab startS =
      stateScanTokens trans alpha anything initS f2 vocab startS :=
  stateScanTokens_finals_eq trans alpha anything initS vocab startS f1 f2

/-! ### C9 -/

/-- C9 counterexample: on the concrete scenario the frontier loop completes
but passes state 2 (and state 1) to the vocabulary scanner twice — the
duplicate frontier entries pushed before the state was first seen are popped
and re-scanned — so "each state is scanned at most once" fails. -/
theorem build_scan_once_cex :
    buildScanTrace exTrans exAlpha 2 0 [2] exVocab 100 [0] [] [] = [0, 2, 2, 1, 1] ∧
    createFsmIndexEndToEndRust exTrans exAlpha 2 0 [2] exVocab 100 = .ok exM ∧
    ¬([(0 : Int), 2, 2, 1, 1].Nodup) :=
  ⟨rfl, rfl, by decide⟩

/-- C9 (amended): the frontier loop always terminates — some finite fuel
completes every build — because the scanned states live in the finite set of
transition targets plus the initial state; however a state may be scanned
more than once when duplicate frontier entries were pushed before its first
scan. -/
theorem build_terminates (trans : List ((Int × Int) × Int)) (alpha : List (Char × Int))
    (anything : Int) (initS : Int) (finals : List Int)
    (vocab : List (List Char × List Int)) :
    ∃ fuel, createFsmIndexEndToEndRust trans alpha anything initS finals vocab fuel ≠
      .outOfFuel := by
  obtain ⟨n, hn⟩ := buildLoop_term_aux trans alpha anything initS finals vocab
    ((stateUniverse trans initS).toFinset \ ([] : List Int).toFinset).card [initS] [] []
    (fun x hx => by
      rcases List.mem_singleton.mp hx with rfl
      exact List.mem_cons_self _ _)
    le_rfl
  exact ⟨n, hn⟩

/-! ### C10 -/

/-- C10 counterexample: a vocabulary containing the empty token text whose id
set is empty does **not** abort: the out-of-bounds access sits inside the
per-id loop, which never runs, so the scan returns an empty result and the
build completes. -/
theorem empty_token_abort_cex :
    stateScanTokens [] [] 0 0 [] [([], ([] : List Int))] 0 = some [] ∧
    createFsmIndexEndToEndRust [] [] 0 0 [] [([], ([] : List Int))] 5 = .ok [] :=
  ⟨rfl, rfl⟩

/-- C10 (amended): the scan completes exactly when every empty token text in
the vocabulary carries no id (so with every token text non-empty the end-state
access is always in bounds); when some empty token text carries at least one
id, the out-of-bounds access aborts the scan, and therefore the whole build,
at any positive fuel. -/
theorem empty_token_abort (trans : List ((Int × Int) × Int)) (alpha : List (Char × Int))
    (anything : Int) (initS : Int) (finals : List Int)
    (vocab : List (List Char × List Int)) (startS : Int) :
    ((stateScanTokens trans alpha anything initS finals vocab startS).isSome = true ↔
      ∀ T ids, (T, ids) ∈ vocab → T = [] → ids = []) ∧
    ((∃ ids, (([] : List Char), ids) ∈ vocab ∧ ids ≠ []) →
      ∀ fuel : Nat,
        createFsmIndexEndToEndRust trans alpha anything initS finals vocab (fuel + 1) =
          .aborted) := by
  constructor
  · exact stateScanTokens_isSome_iff trans alpha anything initS finals vocab startS
  · rintro ⟨ids, hmem, hne⟩ fuel
    have hnone : stateScanTokens trans alpha anything initS finals vocab initS = none := by
      cases hs : stateScanTokens trans alpha anything initS finals vocab initS with
      | none => rfl
      | some ps =>
        have hsome : (stateScanTokens trans alpha anything initS finals vocab initS).isSome =
            true := by
          rw [hs]; rfl
        have hids :=
          (stateScanTokens_isSome_iff trans alpha anything initS finals vocab initS).mp
            hsome [] ids hmem rfl
        exact absurd hids hne
    simp [createFsmIndexEndToEndRust, buildLoop, hnone]

/-- C10 witness: the amended statement applied to the vocabulary
`{"": {1}}`: the build aborts. -/
theorem empty_token_abort_witness :
    createFsmIndexEndToEndRust [] [] 0 0 [] [([], [1])] 5 = .aborted :=
  (empty_token_abort [] [] 0 0 [] [([], [1])] 0).2 ⟨[1], by decide, by decide⟩ 4

end Rustlines
